import Mathlib

/- Verification development for the SMC-ABC sampler in
pymc3/step_methods/smc_ABC.py.  Numeric code working on floating-point
values is embedded over the rationals (exact arithmetic) where the code is
algebraic, and over the reals where transcendental functions (exp, log)
occur.  Non-finite float values (NaN, positive or negative infinity) are modelled by `none` in an
`Option` type, so `np.isfinite x` becomes `x.isSome`. -/

set_option maxHeartbeats 1000000

/- ----------------------------------------------------------------------
Tolerance scheduler: `_calc_epsilon` (smc_ABC.py lines 612-635) and the
scipy helper `mquantiles` it calls with `prob=[0.25, 0.75]` and the scipy
defaults `alphap = betap = 0.4`.
---------------------------------------------------------------------- -/

/- Embedding of `scipy.stats.mstats.mquantiles` on one-dimensional data for
a single probability `p`, with the default plotting positions
`alphap = betap = 2/5`:  sort the data; `n = 0` yields a masked (NaN)
result, modelled as `none`; `n = 1` returns the unique element; otherwise
`m = alphap + p*(1 - alphap - betap)`, `aleph = n*p + m`,
`k = floor(clip(aleph, 1, n-1))`, `gamma = clip(aleph - k, 0, 1)` and the
result interpolates the order statistics `x[k-1]` and `x[k]` (0-based). -/
def mquantile (data : List ℚ) (p : ℚ) : Option ℚ :=
  let x := data.insertionSort (fun a b => a ≤ b)
  let n := x.length
  if n = 0 then none
  else if n = 1 then some (x.headD 0)
  else
    let m : ℚ := 2/5 + p * (1 - 2/5 - 2/5)
    let aleph : ℚ := (n : ℚ) * p + m
    let k : ℤ := ⌊min (max aleph 1) ((n : ℚ) - 1)⌋
    let gamma : ℚ := min (max (aleph - (k : ℚ)) 0) 1
    some ((1 - gamma) * x.getD (k - 1).toNat 0 + gamma * x.getD k.toNat 0)

/- Embedding of `_calc_epsilon(epsilons, population, vars, iqr_scale, stage)`
(lines 612-635).  `population` is the flattened list of parameter values
`[d[str(v)] for d in population for v in vars]`.  In adaptive mode
(`epsilons is None`) the result is `|q75 - q25| * iqr_scale`; with a fixed
schedule it is `epsilons[stage]`, where an out-of-range index (Python
IndexError) is modelled as `none`. -/
def _calc_epsilon (epsilons : Option (List ℚ)) (population : List ℚ)
    (iqr_scale : ℚ) (stage : ℕ) : Option ℚ :=
  match epsilons with
  | none =>
    match mquantile population (1/4), mquantile population (3/4) with
    | some q1, some q3 => some (|q3 - q1| * iqr_scale)
    | _, _ => none
  | some es => es.get? stage

/- ----------------------------------------------------------------------
Systematic resampler: `SMC_ABC.resample` (lines 362-392).
---------------------------------------------------------------------- -/

/- Running cumulative sums with accumulator `acc`: `cumsum 0 w` is
`np.cumsum(w)`. -/
def cumsum (acc : ℚ) : List ℚ → List ℚ
  | [] => []
  | x :: xs => (acc + x) :: cumsum (acc + x) xs

/- The inner `while u[i] > cum_dist[j]: j += 1` loop of `resample`.
Returns the final value of `j`; `none` models the IndexError Python raises
when `j` runs past the end of `cum_dist`. -/
def advanceJ (cum : List ℚ) (target : ℚ) (j : ℕ) : Option ℕ :=
  if h : j < cum.length then
    if target > cum.get ⟨j, h⟩ then advanceJ cum target (j + 1) else some j
  else none
termination_by cum.length - j

/- First loop of `resample`: for each target mass `u[i]` advance `j` (which
persists across iterations) and increment `N_childs[j]`. -/
def nChildsLoop (cum : List ℚ) : List ℚ → ℕ → List ℕ → Option (ℕ × List ℕ)
  | [], j, N => some (j, N)
  | t :: ts, j, N =>
    match advanceJ cum t j with
    | none => none
    | some j' => nChildsLoop cum ts j' (N.set j' (N.getD j' 0 + 1))

/- The inner `for j in range(indx, indx + N_childs[i]): outindx[j] = parents[i]`
loop: write `val` into `cnt` consecutive slots starting at `start`. -/
def fillSlots (out : List ℕ) (start cnt val : ℕ) : List ℕ :=
  match cnt with
  | 0 => out
  | c + 1 => fillSlots (out.set start val) (start + 1) c val

/- Second loop of `resample`: walk `N_childs` (element `n` for parent `i`),
filling `n` slots of `out` with `i` when `n > 0`, and advancing `indx` by
`n` in every iteration. -/
def outLoop : List ℕ → ℕ → List ℕ → ℕ → List ℕ
  | [], _, out, _ => out
  | n :: ns, indx, out, i =>
    outLoop ns (indx + n) (if n > 0 then fillSlots out indx n i else out) (i + 1)

/- Embedding of `SMC_ABC.resample` (lines 362-392), Kitagawa deterministic
(systematic) resampling.  `r` is the single draw `np.random.rand()`, so the
target masses are `(i + r) / chains`; `none` models the IndexError raised
when the inner while-loop overruns `cum_dist`. -/
def resample (chains : ℕ) (weights : List ℚ) (r : ℚ) : Option (List ℕ) :=
  let cum := cumsum 0 weights
  let us := (List.range chains).map (fun i : ℕ => ((i : ℚ) + r) / (chains : ℚ))
  match nChildsLoop cum us 0 (List.replicate chains 0) with
  | none => none
  | some (_, N) => some (outLoop N 0 (List.replicate chains 0) 0)

/- ----------------------------------------------------------------------
Weighted covariance: `SMC_ABC.calc_covariance` (lines 282-293), built on
`np.cov(array_population, aweights=weights, bias=False, rowvar=0)`.
---------------------------------------------------------------------- -/

/- A float value: `some q` is the finite value `q`, `none` is non-finite
(NaN or an infinity). -/
abbrev QVal := Option ℚ

def qadd : QVal → QVal → QVal
  | some a, some b => some (a + b)
  | _, _ => none

def qsub : QVal → QVal → QVal
  | some a, some b => some (a - b)
  | _, _ => none

def qmul : QVal → QVal → QVal
  | some a, some b => some (a * b)
  | _, _ => none

/- Float division: a finite value divided by zero is non-finite. -/
def qdiv : QVal → QVal → QVal
  | some a, some b => if b = 0 then none else some (a / b)
  | _, _ => none

def qsum (l : List QVal) : QVal := l.foldr qadd (some 0)

/- Embedding of `np.cov(X, aweights=w, bias=False, rowvar=0)` for an
`n x d` observation matrix `X` (rows are observations, columns are the `d`
variables).  NumPy computes `v1 = sum(w)`, `v2 = sum(w*w)`, the weighted
column means `avg_j = sum_i w_i X_ij / v1`, the normalization
`fact = v1 - v2/v1` (clipped to `0` with a warning when `fact <= 0`,
which then makes every entry of the result non-finite), and the entries
`cov_jk = sum_i w_i (X_ij - avg_j) (X_ik - avg_k) / fact`. -/
/- The normalization `fact = v1 - v2/v1` with `v1 = sum(w)` and
`v2 = sum(w*w)` (the `aweights`, `bias=False` case: `ddof = 1`). -/
def covFact (w : List ℚ) : QVal :=
  qsub (some w.sum) (qdiv (some ((w.map (fun x => x * x)).sum)) (some w.sum))

/- NumPy's `if fact <= 0: warn; fact = 0.0` clip (a non-finite `fact`
fails the comparison and is kept). -/
def covFactClip (w : List ℚ) : QVal :=
  match covFact w with
  | some f => if f ≤ 0 then some 0 else some f
  | none => none

/- Column `j` of the observation matrix (the values of variable `j`). -/
def covCol (X : List (List ℚ)) (j : ℕ) : List ℚ :=
  X.map (fun row => row.getD j 0)

/- Weighted mean of column `j`: `sum_i w_i X_ij / v1`. -/
def covAvg (X : List (List ℚ)) (w : List ℚ) (j : ℕ) : QVal :=
  qdiv (some ((List.zipWith (fun wi x => wi * x) w (covCol X j)).sum))
    (some w.sum)

/- Entry `(j, k)` of the weighted covariance:
`sum_i w_i (X_ij - avg_j) (X_ik - avg_k) / fact`. -/
def covEntry (X : List (List ℚ)) (w : List ℚ) (j k : ℕ) : QVal :=
  qdiv (qsum (List.zipWith (fun wi x =>
        qmul (some wi)
          (qmul (qsub (some x.1) (covAvg X w j))
            (qsub (some x.2) (covAvg X w k))))
      w (List.zip (covCol X j) (covCol X k))))
    (covFactClip w)

def np_cov_aweights (X : List (List ℚ)) (w : List ℚ) : List (List QVal) :=
  let d := (X.headD []).length
  (List.range d).map (fun j => (List.range d).map (fun k => covEntry X w j k))

/- Embedding of `SMC_ABC.calc_covariance` (lines 282-293): compute the
weighted covariance of the population and raise `ValueError` (modelled as
`none`) exactly when the result contains a NaN or infinite entry
(`np.isnan(cov).any() or np.isinf(cov).any()`); otherwise return the
matrix (`np.atleast_2d` is the identity on an already 2-d result). -/
def calc_covariance (X : List (List ℚ)) (w : List ℚ) :
    Option (List (List QVal)) :=
  let cov := np_cov_aweights X w
  if cov.any (fun row => row.any (fun e => e = none)) then none
  else some cov

/- ----------------------------------------------------------------------
Stage loop of `sample_smc_abc` (lines 518-564).
---------------------------------------------------------------------- -/

/- One observable event of the stage loop: `event eps resampled` records
that `calc_beta` returned tolerance `eps`, and whether the loop body then
performed the resampling branch (covariance re-estimation, proposal
rebuild, resampling, `stage += 1`; lines 557-564) as opposed to the
dump-and-stop branch (lines 550-556).  `indexError` records the IndexError
a fixed schedule raises when the stage index runs past its end. -/
inductive LoopStep where
  | event (eps : ℚ) (resampled : Bool)
  | indexError
deriving DecidableEq, Repr

/- Embedding of the `while step.epsilon > step.minimum_eps:` loop (lines
519-564).  The population produced by sampling stage `s` is abstracted as
`popOf s` (its flattened parameter values); `calc_beta`'s epsilon output is
`_calc_epsilon` on that population.  `fuel` bounds the number of
iterations unfolded (the Python loop has no such bound and may diverge);
each iteration either stops after an `event eps false` when
`eps < minEps`, or emits `event eps true`, increments the stage and
re-tests the loop guard. -/
def stageLoop (epsilons : Option (List ℚ)) (minEps iqr_scale : ℚ)
    (popOf : ℕ → List ℚ) : ℕ → ℕ → ℚ → List LoopStep
  | 0, _, _ => []
  | fuel + 1, stage, eps =>
    if eps > minEps then
      match _calc_epsilon epsilons (popOf stage) iqr_scale stage with
      | none => [LoopStep.indexError]
      | some eps' =>
        if eps' < minEps then [LoopStep.event eps' false]
        else LoopStep.event eps' true ::
          stageLoop epsilons minEps iqr_scale popOf fuel (stage + 1) eps'
    else []

/- Embedding of `sample_smc_abc` from line 514 (initial
`step.epsilon = _calc_epsilon(...)` at stage 0) through the stage loop:
the list of loop events for a run started at stage 0. -/
def sample_smc_abc_events (epsilons : Option (List ℚ)) (minEps iqr_scale : ℚ)
    (popInit : List ℚ) (popOf : ℕ → List ℚ) (fuel : ℕ) : List LoopStep :=
  match _calc_epsilon epsilons popInit iqr_scale 0 with
  | none => [LoopStep.indexError]
  | some eps0 => stageLoop epsilons minEps iqr_scale popOf fuel 0 eps0

/- ----------------------------------------------------------------------
Constructor handling of the epsilon schedule: `SMC_ABC.__init__`
(lines 194-198).
---------------------------------------------------------------------- -/

/- A heap of Python list objects, addressed by natural numbers, used to
make list aliasing and in-place mutation observable. -/
structure PyHeap where
  lists : ℕ → List ℚ

/- Embedding of lines 194-198 of `SMC_ABC.__init__`:
`self.epsilons = epsilons; if epsilons is not None:
self.epsilons.append(minimum_eps)`.  The argument is an optional reference
(heap address) to the caller's list; the result is the updated heap
together with the reference stored in `self.epsilons`.  Since the code
stores the argument reference itself and then calls `append` on it, the
append mutates the caller's object in place. -/
def smc_init_epsilons (h : PyHeap) (epsilons : Option ℕ) (minimum_eps : ℚ) :
    PyHeap × Option ℕ :=
  match epsilons with
  | none => (h, none)
  | some a =>
    (⟨fun a' => if a' = a then h.lists a ++ [minimum_eps] else h.lists a'⟩,
      some a)

/- ----------------------------------------------------------------------
Mutation kernel: the `stage != 0` branch of `SMC_ABC.astep`
(lines 236-259).
---------------------------------------------------------------------- -/

/- One output value of the compiled model function `logp_forw`: `some r`
is a finite float, `none` a non-finite one, so `np.isfinite` is
`Option.isSome`. -/
abbrev OutVal := Option ℝ

/- The pieces of `SMC_ABC` state that `astep`'s mutation loop reads:
`logp_forw` is the compiled model function on a flattened point;
`llk_index` is `self._llk_index`; `logp_proposal q` is
`self.proposal_dist.logp(self.covariance * self.scaling, q)` (scipy's
multivariate-normal log-density, abstracted as a function of the point,
since covariance and scaling are fixed during the call). -/
structure AStepEnv where
  logp_forw : List ℝ → List OutVal
  llk_index : ℕ
  logp_proposal : List ℝ → ℝ

/- Embedding of the mutation loop `for _ in range(5000): ...` of
`SMC_ABC.astep` (lines 243-259, the `stage != 0` branch).  The successive
draws `self.proposal_dist(1)[0,0]` - note the `[0,0]`: a single scalar,
added (broadcast) to every dimension of `q0` - are passed as the list
`deltas`, whose length is the attempt budget (5000 in the source).  The
result models `(q_new, l_new)` together with the final value of
`self.chain_previous_lpoint[self.chain_index]`.  On a finite
`logp_prior = l_new[self._llk_index]` the loop accepts: it overwrites that
entry with `np.exp(logp_prior - logp_proposal)`, stores the list in
`chain_previous_lpoint` and breaks; otherwise it sets `q_new = q0`,
`l_new = chain_previous_lpoint[chain_index]` and retries, so exhausting
the budget returns `q0` with the previously stored point, and no path
raises. -/
noncomputable def astepLoop (env : AStepEnv) (q0 : List ℝ)
    (prev : List OutVal) : List ℝ → List ℝ × List OutVal × List OutVal
  | [] => (q0, prev, prev)
  | delta :: rest =>
    let q_prop := q0.map (fun x => x + delta)
    let l_new := env.logp_forw q_prop
    match l_new.getD env.llk_index none with
    | some logp_prior =>
      let l_acc := l_new.set env.llk_index
        (some (Real.exp (logp_prior - env.logp_proposal q_prop)))
      (q_prop, l_acc, l_acc)
    | none => astepLoop env q0 prev rest

/- Modelled from the spec: the code computing the model's log-density
output (the ABC pseudo-likelihood read at `self._llk_index`) is not under
src/ - it lives in the observed RV's distribution in the surrounding
pymc3 library, reached through the compiled `logp_forw`.  Following spec
section 4.2 (steps 4-6) and the glossary entry for epsilon, the value is
non-finite outside the prior's support (step 4), and otherwise finite
exactly when the distance between the simulated and observed summary
statistics is strictly below epsilon (the in-tolerance pseudo-likelihood
factor contributes log 1 = 0, leaving the prior log-density). -/
noncomputable def abcLlk (priorLogp : List ℝ → Option ℝ) (distance : List ℝ → ℝ)
    (eps : ℝ) (q : List ℝ) : OutVal :=
  match priorLogp q with
  | none => none
  | some p => if distance q < eps then some p else none

/- The full output list of `logp_forw` under the spec-modelled ABC
pseudo-likelihood: the other output variables (`others`) with the entry at
`llk` replaced by `abcLlk`. -/
noncomputable def abcForw (others : List ℝ → List OutVal) (llk : ℕ)
    (priorLogp : List ℝ → Option ℝ) (distance : List ℝ → ℝ) (eps : ℝ)
    (q : List ℝ) : List OutVal :=
  (others q).set llk (abcLlk priorLogp distance eps q)

/- ----------------------------------------------------------------------
Importance weights: `SMC_ABC.calc_beta` (lines 261-280).
---------------------------------------------------------------------- -/

/- Embedding of the weight computation in `SMC_ABC.calc_beta` (lines
271-273): `self.likelihoods = np.ones_like(self.likelihoods);
weights_un = self.likelihoods; weights = weights_un / np.sum(weights_un)`.
The argument is the stored `self.likelihoods` vector; only its length
survives. -/
noncomputable def calc_beta_weights (likelihoods : List ℝ) : List ℝ :=
  let weights_un := likelihoods.map (fun _ => 1)
  weights_un.map (fun x => x / weights_un.sum)

/- The weight rule stated by the spec (section 4.3), written from the
spec's words for comparison with `calc_beta_weights`: the stabilized
softmax of the accumulated un-normalized log-weights `w`, that is
`exp(w - max w)` normalized to sum 1. -/
noncomputable def spec_softmax (w : List ℝ) : List ℝ :=
  let m := w.foldr max (w.headD 0)
  let e := w.map (fun x => Real.exp (x - m))
  e.map (fun x => x / e.sum)

/- ----------------------------------------------------------------------
Proposal construction: `MultivariateNormalProposal.__init__`
(lines 43-49).
---------------------------------------------------------------------- -/

/- Square shape: `s` is an `n x n` matrix given as its list of rows. -/
def sqShape (n : ℕ) (s : List (List ℚ)) : Prop :=
  s.length = n ∧ ∀ row ∈ s, row.length = n

/- Matrix entry with zero padding outside the stored lists. -/
def entry (s : List (List ℚ)) (i j : ℕ) : ℚ := (s.getD i []).getD j 0

/- Entry-wise symmetry (trivially true on the zero padding). -/
def symmM (s : List (List ℚ)) : Prop := ∀ i j, entry s i j = entry s j i

/- The quadratic form x^T s x. -/
def quadForm (s : List (List ℚ)) (x : List ℚ) : ℚ :=
  (List.zipWith (fun xi row =>
    xi * (List.zipWith (fun a b => a * b) row x).sum) x s).sum

/- Positive definiteness of the quadratic form. -/
def PosDefM (s : List (List ℚ)) : Prop :=
  ∀ x : List ℚ, x.length = s.length → (∃ i, x.getD i 0 ≠ 0) →
    0 < quadForm s x

/- Rational form of the Cholesky pivot recursion used by
`scipy.linalg.cholesky(s, lower=True)` (LAPACK dpotrf): eliminate the
leading pivot `d0 = s[0,0]`, scale the first column `l = s[1:,0] / d0`,
recurse on the Schur complement `s[1:,1:] - d0 * l * l^T` (only the lower
triangle of `s` is read).  dpotrf fails - scipy raises LinAlgError -
exactly when it meets a non-positive pivot, and on success the lower
Cholesky factor is `L * sqrt(diag D)` where `(L, D)` is the unit lower
triangular factor and pivot vector returned here; computing the rational
pair `(L, D)` instead of the irrational square roots keeps the embedding
exact.  `L` is returned as full rows padded with zeros above the
diagonal. -/
def ldl : List (List ℚ) → Option (List (List ℚ) × List ℚ)
  | [] => some ([], [])
  | row :: rest =>
    let d0 := row.headD 0
    if d0 ≤ 0 then none
    else
      let l := rest.map (fun r => r.headD 0 / d0)
      let schur := List.zipWith (fun li r =>
        List.zipWith (fun lj a => a - li * lj * d0) l r.tail) l rest
      match ldl schur with
      | none => none
      | some (L, D) =>
        some ((1 :: List.replicate rest.length 0) ::
          List.zipWith (fun li Lrow => li :: Lrow) l L, d0 :: D)
termination_by s => s.length
decreasing_by
  simp only [List.length_zipWith, List.length_map, List.length_cons]
  omega

/- Dot product of two rational vectors (zero-padded). -/
def dotc (xs ys : List ℚ) : ℚ := (List.zipWith (fun a b => a * b) xs ys).sum

/- Weighted dot product `sum_k xs_k * ds_k * ys_k`, used to state that
`(L, D)` reconstructs the input: entry `(i, j)` of `L * diag D * L^T` is
`dot3 (row i of L) D (row j of L)`, which is also the `(i, j)` entry of
`chol * chol^T` for `chol = L * sqrt(diag D)`. -/
def dot3 : List ℚ → List ℚ → List ℚ → ℚ
  | x :: xs, d :: ds, y :: ys => x * d * y + dot3 xs ds ys
  | _, _, _ => 0

/- The two failure modes of `MultivariateNormalProposal.__init__`:
`notSquare` is the `ValueError("Covariance matrix is not symmetric.")`
raised when `n != m`, `notPosDef` the `LinAlgError` propagated from
`cholesky`. -/
inductive CovError where
  | notSquare
  | notPosDef
deriving DecidableEq

/- Embedding of `MultivariateNormalProposal.__init__` (lines 43-49):
unpack `n, m = s.shape`, raise if `n != m`, otherwise store
`cholesky(s, lower=True)`, represented by the rational pair `(L, D)` (see
`ldl`). -/
def MultivariateNormalProposal_init (s : List (List ℚ)) :
    Except CovError (List (List ℚ) × List ℚ) :=
  let n := s.length
  let m := (s.headD []).length
  if n ≠ m then Except.error CovError.notSquare
  else
    match ldl s with
    | none => Except.error CovError.notPosDef
    | some LD => Except.ok LD

/- ----------------------------------------------------------------------
Theorems.
---------------------------------------------------------------------- -/

/-- Claim C3, counterexample.  The claim asserts that for stage > 0 the
adaptive epsilon is additionally multiplied by `stage^-0.25`.  For the
population `[0,1,2,3]` the quartiles are `9/20` and `51/20`, so the base
value is `|51/20 - 9/20| * 1/2 = 21/20`; at stage 16 the claimed damping
factor is `16^(-1/4) = 1/2`, yet `_calc_epsilon` returns the undamped
`21/20`, not `21/20 * 1/2`.  (`_calc_epsilon` never reads `stage` in
adaptive mode: lines 628-631 have no stage term.) -/
theorem calc_epsilon_stage16_cex :
    _calc_epsilon none [0, 1, 2, 3] (1/2) 16 = some (21/20) ∧
    (21/20 : ℚ) ≠ 21/20 * (1/2) := by
  constructor
  · have ht2 : Int.toNat 2 = 2 := rfl
    have ht3 : Int.toNat 3 = 3 := rfl
    have habs : |(21 : ℚ) / 10| = 21 / 10 := abs_of_pos (by norm_num)
    norm_num [_calc_epsilon, mquantile, List.insertionSort, List.orderedInsert,
      ht2, ht3, habs]
  · norm_num

/-- Claim C3, amended.  In adaptive mode (`epsilons is None`),
`_calc_epsilon` returns `|q75 - q25| * iqr_scale` where the quartiles come
from `mquantiles(..., prob=[0.25, 0.75])` on the flattened parameter
population — at EVERY stage, with no stage-dependent damping factor: the
result is identical to the stage-0 result. -/
theorem calc_epsilon_adaptive_iqr (population : List ℚ) (iqr_scale : ℚ)
    (stage : ℕ) (q1 q3 : ℚ) (h1 : mquantile population (1/4) = some q1)
    (h3 : mquantile population (3/4) = some q3) :
    _calc_epsilon none population iqr_scale stage = some (|q3 - q1| * iqr_scale) ∧
    _calc_epsilon none population iqr_scale stage
      = _calc_epsilon none population iqr_scale 0 := by
  unfold _calc_epsilon
  rw [h1, h3]
  exact ⟨rfl, rfl⟩

/-- Witness for `calc_epsilon_adaptive_iqr` at the population `[0,1,2,3]`,
`iqr_scale = 1/2`, stage 7. -/
theorem calc_epsilon_adaptive_iqr_witness :
    _calc_epsilon none [0, 1, 2, 3] (1/2) 7 = some (|51/20 - 9/20| * (1/2)) ∧
    _calc_epsilon none [0, 1, 2, 3] (1/2) 7 = _calc_epsilon none [0, 1, 2, 3] (1/2) 0 :=
  calc_epsilon_adaptive_iqr [0, 1, 2, 3] (1/2) 7 (9/20) (51/20)
    (by have ht2 : Int.toNat 2 = 2 := rfl
        have ht3 : Int.toNat 3 = 3 := rfl
        norm_num [mquantile, List.insertionSort, List.orderedInsert, ht2, ht3])
    (by have ht2 : Int.toNat 2 = 2 := rfl
        have ht3 : Int.toNat 3 = 3 := rfl
        norm_num [mquantile, List.insertionSort, List.orderedInsert, ht2, ht3])

/-- Claim C10.  `SMC_ABC.__init__` stores the caller's epsilon-schedule
list object itself (`self.epsilons = epsilons`) and, when it is not None,
appends `minimum_eps` to it in place: afterwards the stored reference is
the caller's address, the list at that address is the caller's sequence
followed by `minimum_eps` (so the caller's own object is mutated), and
when the argument is None nothing is stored or appended. -/
theorem smc_init_epsilons_appends_in_place (h : PyHeap) (a : ℕ)
    (minimum_eps : ℚ) :
    (smc_init_epsilons h (some a) minimum_eps).2 = some a ∧
    ((smc_init_epsilons h (some a) minimum_eps).1).lists a
      = h.lists a ++ [minimum_eps] ∧
    smc_init_epsilons h none minimum_eps = (h, none) := by
  refine ⟨rfl, ?_, rfl⟩
  simp [smc_init_epsilons]

/- Helper for claim C4: in any `stageLoop` event list, an event whose
epsilon is below the floor is the last element and is not resampled. -/
theorem stageLoop_event_below_floor (epsilons : Option (List ℚ))
    (minEps iqr_scale : ℚ) (popOf : ℕ → List ℚ) :
    ∀ (fuel stage : ℕ) (eps : ℚ) (i : ℕ) (e : ℚ) (r : Bool),
      (stageLoop epsilons minEps iqr_scale popOf fuel stage eps).get? i
          = some (LoopStep.event e r) →
      e < minEps →
      r = false ∧
        i + 1 = (stageLoop epsilons minEps iqr_scale popOf fuel stage eps).length := by
  intro fuel
  induction fuel with
  | zero =>
    intro stage eps i e r hi _
    simp [stageLoop] at hi
  | succ fuel ih =>
    intro stage eps i e r hi he
    by_cases hg : eps > minEps
    · rw [stageLoop] at hi ⊢
      simp only [if_pos hg] at hi ⊢
      cases hc : _calc_epsilon epsilons (popOf stage) iqr_scale stage with
      | none =>
        rw [hc] at hi
        simp only at hi
        cases i with
        | zero => simp at hi
        | succ i => simp at hi
      | some eps' =>
        rw [hc] at hi
        simp only at hi ⊢
        by_cases hlt : eps' < minEps
        · simp only [if_pos hlt] at hi ⊢
          cases i with
          | zero =>
            simp only [List.get?_cons_zero, Option.some.injEq] at hi
            cases hi
            exact ⟨rfl, rfl⟩
          | succ i => simp at hi
        · simp only [if_neg hlt] at hi ⊢
          cases i with
          | zero =>
            simp only [List.get?_cons_zero, Option.some.injEq] at hi
            cases hi
            exact absurd he hlt
          | succ i =>
            simp only [List.get?_cons_succ] at hi
            have h2 := ih (stage + 1) eps' i e r hi he
            refine ⟨h2.1, ?_⟩
            simp only [List.length_cons]
            omega
    · rw [stageLoop] at hi
      simp only [if_neg hg] at hi
      simp at hi

/-- Claim C4, amended.  The claim's second half holds: whenever
`calc_beta` returns an epsilon strictly below `minimum_eps`, the stage
loop of `sample_smc_abc` terminates on that same iteration, taking the
dump branch (lines 550-556) that performs no covariance re-estimation, no
proposal rebuild, no resampling, and no stage increment — the event is the
last one and is marked not-resampled.  The claim's first half is false:
the emitted epsilon sequence need not be non-increasing (see the
counterexample `sample_smc_abc_eps_increases_cex`). -/
theorem sample_smc_abc_below_floor_terminates (epsilons : Option (List ℚ))
    (minEps iqr_scale : ℚ) (popInit : List ℚ) (popOf : ℕ → List ℚ)
    (fuel i : ℕ) (e : ℚ) (r : Bool)
    (hi : (sample_smc_abc_events epsilons minEps iqr_scale popInit popOf
        fuel).get? i = some (LoopStep.event e r))
    (he : e < minEps) :
    r = false ∧
      i + 1 = (sample_smc_abc_events epsilons minEps iqr_scale popInit popOf
        fuel).length := by
  unfold sample_smc_abc_events at hi ⊢
  cases hc : _calc_epsilon epsilons popInit iqr_scale 0 with
  | none =>
    rw [hc] at hi
    simp only at hi
    cases i with
    | zero => simp at hi
    | succ i => simp at hi
  | some eps0 =>
    rw [hc] at hi
    simp only at hi ⊢
    exact stageLoop_event_below_floor epsilons minEps iqr_scale popOf
      fuel 0 eps0 i e r hi he

/-- Witness for `sample_smc_abc_below_floor_terminates`: the fixed
schedule `[1, 2, 1/10]` with floor `1/2` emits the events
`[event 1 true, event 2 true, event (1/10) false]`; the event at index 2
has epsilon `1/10 < 1/2`, is not resampled, and is the last one. -/
theorem sample_smc_abc_below_floor_terminates_witness :
    false = false ∧
      2 + 1 = (sample_smc_abc_events (some [1, 2, 1/10]) (1/2) 1 []
        (fun _ => []) 10).length :=
  sample_smc_abc_below_floor_terminates (some [1, 2, 1/10]) (1/2) 1 []
    (fun _ => []) 10 2 (1/10) false (by norm_num [sample_smc_abc_events,
      stageLoop, _calc_epsilon, List.get?]) (by norm_num)

/-- Claim C4, counterexample.  The claim asserts the epsilon sequence
across stages is non-increasing for every run.  A run with the stored
fixed schedule `[1, 2, 1/10]` (caller schedule `[1, 2]` with
`minimum_eps`-floor value `1/10` appended) and floor `1/2` emits the
epsilon sequence `1, 2, 1/10`, which increases from `1` to `2`. -/
theorem sample_smc_abc_eps_increases_cex :
    sample_smc_abc_events (some [1, 2, 1/10]) (1/2) 1 [] (fun _ => []) 10
      = [LoopStep.event 1 true, LoopStep.event 2 true,
         LoopStep.event (1/10) false] ∧ ¬ ((2 : ℚ) ≤ 1) := by
  constructor
  · norm_num [sample_smc_abc_events, stageLoop, _calc_epsilon]
  · norm_num

/- Helper: a `qsum` of finite values is finite. -/
theorem qsum_isSome : ∀ l : List QVal, (∀ v ∈ l, v.isSome = true) →
    (qsum l).isSome = true := by
  intro l
  induction l with
  | nil => intro _; rfl
  | cons a t ih =>
    intro h
    have ha := h a (List.mem_cons_self a t)
    have ht := ih (fun v hv => h v (List.mem_cons_of_mem a hv))
    rcases Option.isSome_iff_exists.mp ha with ⟨x, hx⟩
    rcases Option.isSome_iff_exists.mp ht with ⟨y, hy⟩
    simp only [qsum, List.foldr_cons] at *
    rw [hx, hy]
    rfl

/- Helper: all values of a `zipWith` whose function always produces finite
values are finite. -/
theorem mem_zipWith_isSome {α β : Type} (f : α → β → QVal)
    (h : ∀ a b, (f a b).isSome = true) :
    ∀ (l₁ : List α) (l₂ : List β), ∀ v ∈ List.zipWith f l₁ l₂,
      v.isSome = true := by
  intro l₁
  induction l₁ with
  | nil => intro l₂ v hv; simp at hv
  | cons a t ih =>
    intro l₂ v hv
    cases l₂ with
    | nil => simp at hv
    | cons b t₂ =>
      simp only [List.zipWith_cons_cons, List.mem_cons] at hv
      rcases hv with hv | hv
      · rw [hv]; exact h a b
      · exact ih t₂ v hv

/- Helper: under a positive normalization (`0 < v1` and `v2 < v1 * v1`)
every entry of the weighted covariance is finite. -/
theorem covEntry_isSome (X : List (List ℚ)) (w : List ℚ) (j k : ℕ)
    (hv1 : 0 < w.sum) (hv2 : (w.map (fun x => x * x)).sum < w.sum * w.sum) :
    (covEntry X w j k).isSome = true := by
  have hv1' : w.sum ≠ 0 := ne_of_gt hv1
  have hfact : covFact w = some (w.sum - (w.map (fun x => x * x)).sum / w.sum) := by
    simp [covFact, qdiv, qsub, hv1']
  have hpos : 0 < w.sum - (w.map (fun x => x * x)).sum / w.sum := by
    rw [sub_pos, div_lt_iff₀ hv1]
    exact hv2
  have hclip : covFactClip w = some (w.sum - (w.map (fun x => x * x)).sum / w.sum) := by
    rw [covFactClip, hfact]
    simp [not_le.mpr hpos]
  have havg : ∀ j', (covAvg X w j').isSome = true := by
    intro j'
    simp [covAvg, qdiv, hv1']
  rcases Option.isSome_iff_exists.mp (havg j) with ⟨mj, hmj⟩
  rcases Option.isSome_iff_exists.mp (havg k) with ⟨mk, hmk⟩
  have hnum : (qsum (List.zipWith (fun wi x =>
      qmul (some wi) (qmul (qsub (some x.1) (covAvg X w j))
        (qsub (some x.2) (covAvg X w k))))
      w (List.zip (covCol X j) (covCol X k)))).isSome = true := by
    apply qsum_isSome
    apply mem_zipWith_isSome
    intro a b
    rw [hmj, hmk]
    rfl
  rcases Option.isSome_iff_exists.mp hnum with ⟨num, hn⟩
  rw [covEntry, hn, hclip, qdiv]
  simp [ne_of_gt hpos]

/-- Claim C7, amended.  `calc_covariance` raises (modelled as `none`) if
and only if the weighted covariance matrix contains a non-finite (NaN or
infinite) entry; but — contrary to the claim's "in particular" — having
fewer effective samples than parameter dimensions does NOT produce a
non-finite entry: whenever the weight vector has positive sum `v1` and
`v2 = sum(w*w) < v1 * v1` (true for any 2 or more equal positive
weights), every entry is finite and the matrix is returned unchanged —
regardless of the number of columns.  The degenerate case requires the
normalization `v1 - v2/v1` to vanish (effectively one sample),
e.g. weights concentrated on one chain. -/
theorem calc_covariance_raises_iff_nonfinite :
    (∀ (X : List (List ℚ)) (w : List ℚ),
      calc_covariance X w = none ↔
        ((np_cov_aweights X w).any (fun row => row.any (fun e => e = none)))
          = true) ∧
    (∀ (X : List (List ℚ)) (w : List ℚ),
      0 < w.sum → (w.map (fun x => x * x)).sum < w.sum * w.sum →
      calc_covariance X w = some (np_cov_aweights X w)) := by
  constructor
  · intro X w
    by_cases h : ((np_cov_aweights X w).any
        (fun row => row.any (fun e => e = none))) = true
    · simp [calc_covariance, h]
    · simp [calc_covariance, h]
  · intro X w hv1 hv2
    cases hres : (np_cov_aweights X w).any (fun row => row.any (fun e => e = none)) with
    | false => simp [calc_covariance, hres]
    | true =>
      exfalso
      rcases List.any_eq_true.mp hres with ⟨row, hrow, hrow2⟩
      have hrow2' : row.any (fun e => decide (e = none)) = true := hrow2
      rcases List.any_eq_true.mp hrow2' with ⟨e, he, hnone⟩
      have henone : e = none := of_decide_eq_true hnone
      simp only [np_cov_aweights, List.mem_map] at hrow
      rcases hrow with ⟨j, _, hj⟩
      rw [← hj] at he
      rcases List.mem_map.mp he with ⟨k, _, hk⟩
      have hs := covEntry_isSome X w j k hv1 hv2
      rw [hk, henone] at hs
      simp at hs

/-- Witness for `calc_covariance_raises_iff_nonfinite` (second part) at
the claim's own example shape: 2 chains, 5 parameter dimensions, equal
weights. -/
theorem calc_covariance_raises_iff_nonfinite_witness :
    calc_covariance [[0, 0, 0, 0, 0], [1, 1, 1, 1, 1]] [1/2, 1/2]
      = some (np_cov_aweights [[0, 0, 0, 0, 0], [1, 1, 1, 1, 1]] [1/2, 1/2]) :=
  calc_covariance_raises_iff_nonfinite.2 [[0, 0, 0, 0, 0], [1, 1, 1, 1, 1]]
    [1/2, 1/2] (by norm_num) (by norm_num)

/-- Claim C7, counterexample.  The claim asserts `calc_covariance` raises
given fewer effective samples than dimensions, "e.g., 2 chains and a
5-dimensional parameter space".  With 2 chains, 5 dimensions and the equal
weights the sampler produces, it does not raise: it returns the (finite,
rank-deficient) weighted covariance matrix with every entry `1/2`. -/
theorem calc_covariance_two_chains_five_dims_cex :
    calc_covariance [[0, 0, 0, 0, 0], [1, 1, 1, 1, 1]] [1/2, 1/2]
      = some (List.replicate 5 (List.replicate 5 (some (1/2)))) ∧
    calc_covariance [[0, 0, 0, 0, 0], [1, 1, 1, 1, 1]] [1/2, 1/2] ≠ none := by
  have hM : np_cov_aweights [[0, 0, 0, 0, 0], [1, 1, 1, 1, 1]] [1/2, 1/2]
      = List.replicate 5 (List.replicate 5 (some (1/2))) := by
    norm_num [np_cov_aweights, covEntry, covAvg, covCol, covFact, covFactClip,
      qdiv, qsub, qmul, qadd, qsum, List.range_succ, List.replicate]
  have hc : calc_covariance [[0, 0, 0, 0, 0], [1, 1, 1, 1, 1]] [1/2, 1/2]
      = some (List.replicate 5 (List.replicate 5 (some (1/2)))) := by
    rw [calc_covariance, hM]
    simp
  refine ⟨hc, ?_⟩
  intro h
  exact Option.noConfusion ((Eq.symm hc).trans h)

/- Helper for claim C2: `calc_beta`'s weights are the uniform vector for
any stored likelihoods. -/
theorem calc_beta_weights_eq_replicate (lik : List ℝ) :
    calc_beta_weights lik
      = List.replicate lik.length ((1 : ℝ) / (lik.length : ℝ)) := by
  simp only [calc_beta_weights, List.map_const', List.sum_replicate,
    List.map_replicate, nsmul_eq_mul, mul_one, List.length_map]

/-- Claim C2, amended.  `calc_beta` first overwrites the stored likelihood
vector with ones (`np.ones_like`), so the importance weights it returns
are the uniform vector `1/chains` in every slot: they sum to 1, but they
do not depend on the accumulated prior-minus-proposal terms at all — any
two likelihood vectors of the same length yield identical weights.  They
are not the softmax of the accumulated log-weights (see
`calc_beta_weights_not_softmax_cex`). -/
theorem calc_beta_weights_uniform (likelihoods : List ℝ)
    (h : likelihoods ≠ []) :
    calc_beta_weights likelihoods
      = List.replicate likelihoods.length ((1 : ℝ) / (likelihoods.length : ℝ)) ∧
    (calc_beta_weights likelihoods).sum = 1 ∧
    ∀ lik2 : List ℝ, lik2.length = likelihoods.length →
      calc_beta_weights lik2 = calc_beta_weights likelihoods := by
  have hn : ((likelihoods.length : ℝ)) ≠ 0 := by
    have := List.length_pos.mpr h
    positivity
  refine ⟨calc_beta_weights_eq_replicate likelihoods, ?_, ?_⟩
  · rw [calc_beta_weights_eq_replicate likelihoods]
    rw [List.sum_replicate, nsmul_eq_mul]
    field_simp
  · intro lik2 hlen
    rw [calc_beta_weights_eq_replicate likelihoods,
      calc_beta_weights_eq_replicate lik2, hlen]

/-- Witness for `calc_beta_weights_uniform` at the stored likelihood
vector `[2, 5]`. -/
theorem calc_beta_weights_uniform_witness :
    calc_beta_weights [2, 5] = List.replicate 2 ((1 : ℝ) / 2) ∧
    (calc_beta_weights [2, 5]).sum = 1 := by
  have h := calc_beta_weights_uniform [2, 5] (by simp)
  refine ⟨?_, h.2.1⟩
  have h1 := h.1
  norm_num at h1 ⊢
  exact h1

/-- Claim C2, counterexample.  For a 2-chain population whose accumulated
(exponentiated) weight terms are `[1, 3]` — un-normalized log-weights
`[0, log 3]` — the claim demands the stabilized-softmax weights
`[1/4, 3/4]`, but `calc_beta` returns the uniform `[1/2, 1/2]`. -/
theorem calc_beta_weights_not_softmax_cex :
    calc_beta_weights [1, 3] = [1/2, 1/2] ∧
    spec_softmax [0, Real.log 3] = [1/4, 3/4] ∧
    ([1/2, 1/2] : List ℝ) ≠ [1/4, 3/4] := by
  refine ⟨?_, ?_, ?_⟩
  · rw [calc_beta_weights_eq_replicate]
    norm_num [List.replicate]
  · have hnn : (0 : ℝ) ≤ Real.log 3 := Real.log_nonneg (by norm_num)
    have hlog : Real.exp (Real.log 3) = 3 := Real.exp_log (by norm_num)
    simp only [spec_softmax, List.headD_cons, List.foldr_cons, List.foldr_nil,
      List.map_cons, List.map_nil, List.sum_cons, List.sum_nil]
    rw [max_eq_left hnn, max_eq_right hnn]
    rw [zero_sub, sub_self, Real.exp_zero, Real.exp_neg, hlog]
    norm_num
  · intro hcontra
    have : (1 : ℝ) / 2 = 1 / 4 := by
      have := List.head_eq_of_cons_eq hcontra
      exact this
    norm_num at this

/- Helper: if every attempt in the delta stream is rejected (non-finite
`logp_prior`), the mutation loop falls through and keeps `q0` and the
previously stored point. -/
theorem astepLoop_reject_all (env : AStepEnv) (q0 : List ℝ)
    (prev : List OutVal) :
    ∀ deltas : List ℝ,
      (∀ d ∈ deltas,
        (env.logp_forw (q0.map (fun x => x + d))).getD env.llk_index none
          = none) →
      astepLoop env q0 prev deltas = (q0, prev, prev) := by
  intro deltas
  induction deltas with
  | nil => intro _; rfl
  | cons d rest ih =>
    intro h
    have hd := h d (List.mem_cons_self d rest)
    rw [astepLoop]
    simp only [hd]
    exact ih (fun d' hd' => h d' (List.mem_cons_of_mem d hd'))

/- Helper: the mutation loop stops at the first accepted attempt: with a
rejected prefix `pre` and an accepted delta `d` (finite `logp_prior = p`),
the result is the candidate `q0 + d`, the output list with the weight term
overwritten by `exp(p - logp_proposal)`, the same list stored in
`chain_previous_lpoint`, and the deltas after `d` are never consulted. -/
theorem astepLoop_first_accept (env : AStepEnv) (q0 : List ℝ)
    (prev : List OutVal) (d : ℝ) (post : List ℝ) (p : ℝ) :
    ∀ pre : List ℝ,
      (∀ d' ∈ pre,
        (env.logp_forw (q0.map (fun x => x + d'))).getD env.llk_index none
          = none) →
      (env.logp_forw (q0.map (fun x => x + d))).getD env.llk_index none
          = some p →
      astepLoop env q0 prev (pre ++ d :: post)
        = (q0.map (fun x => x + d),
           (env.logp_forw (q0.map (fun x => x + d))).set env.llk_index
             (some (Real.exp (p - env.logp_proposal (q0.map (fun x => x + d))))),
           (env.logp_forw (q0.map (fun x => x + d))).set env.llk_index
             (some (Real.exp (p - env.logp_proposal (q0.map (fun x => x + d)))))) ∧
      astepLoop env q0 prev (pre ++ d :: post)
        = astepLoop env q0 prev (pre ++ [d]) := by
  intro pre
  induction pre with
  | nil =>
    intro _ hacc
    constructor
    · rw [List.nil_append, astepLoop]
      simp only [hacc]
    · rw [List.nil_append, List.nil_append, astepLoop, astepLoop]
      simp only [hacc]
  | cons d' rest ih =>
    intro hpre hacc
    have hd' := hpre d' (List.mem_cons_self d' rest)
    have ihr := ih (fun x hx => hpre x (List.mem_cons_of_mem d' hx)) hacc
    constructor
    · rw [List.cons_append, astepLoop]
      simp only [hd']
      exact ihr.1
    · rw [List.cons_append, List.cons_append, astepLoop, astepLoop]
      simp only [hd']
      exact ihr.2

/-- Claim C8.  When every one of the attempts in the budget is rejected
(`np.isfinite(logp_prior)` false each time), `SMC_ABC.astep` returns the
unchanged input position `q0` together with the previously stored
`chain_previous_lpoint` entry, and leaves that stored entry untouched;
the fall-through path is a total function of the inputs — lines 243-259
contain no raise, so it never raises. -/
theorem astep_budget_exhausted_returns_q0 (env : AStepEnv) (q0 : List ℝ)
    (prev : List OutVal) (deltas : List ℝ)
    (h : ∀ d ∈ deltas,
      (env.logp_forw (q0.map (fun x => x + d))).getD env.llk_index none
        = none) :
    astepLoop env q0 prev deltas = (q0, prev, prev) :=
  astepLoop_reject_all env q0 prev deltas h

/-- Witness for `astep_budget_exhausted_returns_q0` with the full
5000-attempt budget of the source, a model whose likelihood output is
always non-finite, `q0 = [0]` and stored point `[some 1]`. -/
theorem astep_budget_exhausted_returns_q0_witness :
    astepLoop ⟨fun _ => [none], 0, fun _ => 0⟩ [0] [some 1]
        (List.replicate 5000 1) = ([0], [some 1], [some 1]) :=
  astep_budget_exhausted_returns_q0 ⟨fun _ => [none], 0, fun _ => 0⟩ [0]
    [some 1] (List.replicate 5000 1) (fun _ _ => rfl)

/-- Claim C5, amended.  `SMC_ABC.astep` applies NO rounding to proposal
perturbations: the discrete masks `self.discrete`, `self.any_discrete`,
`self.all_discrete` computed in `__init__` (lines 214-216) are never
consulted by `astep`, whose accepted candidate is always the raw
(broadcast scalar) sum `q0 + delta` (line 245) — for discrete and
continuous dimensions alike, so an all-discrete chain can move to a
non-integer position (see `astep_discrete_not_rounded_cex`). -/
theorem astep_accepted_position_unrounded (env : AStepEnv) (q0 : List ℝ)
    (prev : List OutVal) (pre : List ℝ) (d : ℝ) (post : List ℝ) (p : ℝ)
    (hpre : ∀ d' ∈ pre,
      (env.logp_forw (q0.map (fun x => x + d'))).getD env.llk_index none
        = none)
    (hacc : (env.logp_forw (q0.map (fun x => x + d))).getD env.llk_index none
        = some p) :
    (astepLoop env q0 prev (pre ++ d :: post)).1 = q0.map (fun x => x + d) := by
  rw [(astepLoop_first_accept env q0 prev d post p pre hpre hacc).1]

/-- Witness for `astep_accepted_position_unrounded`: a single accepted
perturbation `1/2` from `q0 = [0]`. -/
theorem astep_accepted_position_unrounded_witness :
    (astepLoop ⟨fun _ => [some 0], 0, fun _ => 0⟩ [0] [] [(1/2 : ℝ)]).1
      = [(0 : ℝ)].map (fun x => x + (1/2 : ℝ)) :=
  astep_accepted_position_unrounded ⟨fun _ => [some 0], 0, fun _ => 0⟩ [0]
    [] [] (1/2) [] 0 (fun _ h => absurd h (List.not_mem_nil _)) rfl

/-- Claim C5, counterexample.  The claim says an all-discrete parameter
vector receives integer arithmetic (and discrete dimensions rounded
perturbations).  Take a 1-dimensional chain whose single dimension is
discrete (`self.all_discrete` true), current position `q0 = [0]` (an
integer) and accepted perturbation `delta = 1/2`: `astep` returns the
position `[1/2]`, which is not an integer — no rounding and no integer
cast happen in lines 243-259. -/
theorem astep_discrete_not_rounded_cex :
    (astepLoop ⟨fun _ => [some 0], 0, fun _ => 0⟩ [0] [] [(1/2 : ℝ)]).1
      = [(1/2 : ℝ)] ∧ ¬ ∃ z : ℤ, ((1/2 : ℝ) = (z : ℝ)) := by
  constructor
  · rw [astepLoop]
    norm_num
  · rintro ⟨z, hz⟩
    have h2 : ((2 * z : ℤ) : ℝ) = 1 := by push_cast; linarith
    have h3 : (2 * z : ℤ) = 1 := by exact_mod_cast h2
    omega

/- Helper: reading back the element just written by `List.set`. -/
theorem getD_set_self {α : Type} : ∀ (l : List α) (n : ℕ) (v d : α),
    n < l.length → (l.set n v).getD n d = v := by
  intro l
  induction l with
  | nil => intro n v d h; simp at h
  | cons a t ih =>
    intro n v d h
    cases n with
    | zero => rfl
    | succ n => exact ih n v d (by simpa using h)

/-- Claim C1, amended.  Under the spec-modelled ABC pseudo-likelihood
(`abcLlk`), for a candidate inside the prior's support the mutation loop
of `SMC_ABC.astep` accepts if and only if the distance between the
simulated and observed summary statistics is strictly below epsilon; on
the first acceptance the returned position is the candidate `q0 + delta`,
the loop stops there (the remaining deltas are never consulted), and the
stored auxiliary weight term is
`exp(prior_log_density - proposal_log_density)` — the EXPONENTIAL of the
difference (line 253: `np.exp(logp_prior - logp_proposal)`), not the
difference itself as the claim states (see
`astep_stored_weight_is_exp_cex`). -/
theorem astep_abc_accepts_iff (others : List ℝ → List OutVal) (llk : ℕ)
    (priorLogp : List ℝ → Option ℝ) (distance : List ℝ → ℝ) (eps : ℝ)
    (logp_prop : List ℝ → ℝ) (q0 : List ℝ) (prev : List OutVal)
    (pre : List ℝ) (d : ℝ) (post : List ℝ) (p : ℝ)
    (hlen : ∀ q, llk < (others q).length)
    (hpre : ∀ d' ∈ pre,
      abcLlk priorLogp distance eps (q0.map (fun x => x + d')) = none)
    (hp : priorLogp (q0.map (fun x => x + d)) = some p)
    (hd : distance (q0.map (fun x => x + d)) < eps) :
    (∀ q pq, priorLogp q = some pq →
      ((abcLlk priorLogp distance eps q).isSome = true ↔ distance q < eps)) ∧
    astepLoop ⟨abcForw others llk priorLogp distance eps, llk, logp_prop⟩ q0
        prev (pre ++ d :: post)
      = (q0.map (fun x => x + d),
         (abcForw others llk priorLogp distance eps
             (q0.map (fun x => x + d))).set llk
           (some (Real.exp (p - logp_prop (q0.map (fun x => x + d))))),
         (abcForw others llk priorLogp distance eps
             (q0.map (fun x => x + d))).set llk
           (some (Real.exp (p - logp_prop (q0.map (fun x => x + d)))))) ∧
    astepLoop ⟨abcForw others llk priorLogp distance eps, llk, logp_prop⟩ q0
        prev (pre ++ d :: post)
      = astepLoop ⟨abcForw others llk priorLogp distance eps, llk, logp_prop⟩
          q0 prev (pre ++ [d]) := by
  have hgetD : ∀ q,
      (abcForw others llk priorLogp distance eps q).getD llk none
        = abcLlk priorLogp distance eps q := by
    intro q
    exact getD_set_self (others q) llk _ none (hlen q)
  have hacc : (abcForw others llk priorLogp distance eps
      (q0.map (fun x => x + d))).getD llk none = some p := by
    rw [hgetD]
    simp only [abcLlk, hp]
    simp [hd]
  have hpre' : ∀ d' ∈ pre,
      (abcForw others llk priorLogp distance eps
        (q0.map (fun x => x + d'))).getD llk none = none := by
    intro d' hd'
    rw [hgetD]
    exact hpre d' hd'
  have hrun := astepLoop_first_accept
    ⟨abcForw others llk priorLogp distance eps, llk, logp_prop⟩ q0 prev d
    post p pre hpre' hacc
  refine ⟨?_, hrun.1, hrun.2⟩
  intro q pq hq
  simp only [abcLlk, hq]
  by_cases hqd : distance q < eps
  · simp [hqd]
  · simp [hqd]

/-- Witness for `astep_abc_accepts_iff`: a single-output model, prior
log-density 0 everywhere, distance 0, epsilon 1, proposal log-density 0;
the first delta `0` is accepted from `q0 = [0]`. -/
theorem astep_abc_accepts_iff_witness :
    astepLoop ⟨abcForw (fun _ => [none]) 0 (fun _ => some 0) (fun _ => 0) 1,
        0, fun _ => 0⟩ [0] [] [(0 : ℝ)]
      = ([(0 : ℝ)].map (fun x => x + (0 : ℝ)),
         (abcForw (fun _ => [none]) 0 (fun _ => some 0) (fun _ => 0) 1
             ([(0 : ℝ)].map (fun x => x + (0 : ℝ)))).set 0
           (some (Real.exp ((0 : ℝ) - 0))),
         (abcForw (fun _ => [none]) 0 (fun _ => some 0) (fun _ => 0) 1
             ([(0 : ℝ)].map (fun x => x + (0 : ℝ)))).set 0
           (some (Real.exp ((0 : ℝ) - 0)))) :=
  (astep_abc_accepts_iff (fun _ => [none]) 0 (fun _ => some 0) (fun _ => 0)
    1 (fun _ => 0) [0] [] [] 0 [] 0 (fun _ => by norm_num)
    (fun _ h => absurd h (List.not_mem_nil _)) rfl (by norm_num)).2.1

/-- Claim C1, counterexample.  On acceptance the stored auxiliary weight
term is `np.exp(logp_prior - logp_proposal)` (line 253), not the
difference `logp_prior - logp_proposal`: with prior log-density 0 and
proposal log-density 0 at the accepted candidate, the stored value is
`exp(0 - 0) = 1`, while the claim requires `0 - 0 = 0`. -/
theorem astep_stored_weight_is_exp_cex :
    (astepLoop ⟨abcForw (fun _ => [none]) 0 (fun _ => some 0) (fun _ => 0) 1,
        0, fun _ => 0⟩ [0] [] [(0 : ℝ)]).2.1
      = [some (Real.exp ((0 : ℝ) - 0))] ∧
    Real.exp ((0 : ℝ) - 0) = 1 ∧
    ([some (Real.exp ((0 : ℝ) - 0))] : List OutVal) ≠ [some ((0 : ℝ) - 0)] := by
  refine ⟨?_, ?_, ?_⟩
  · rw [astepLoop]
    simp only [abcForw, abcLlk]
    norm_num
  · norm_num [Real.exp_zero]
  · norm_num [Real.exp_zero]

/- Helper: setting index `k` of a constant list splits it around `k`. -/
theorem set_replicate_decomp {α : Type} (a b : α) :
    ∀ (k n : ℕ), k < n →
      (List.replicate n a).set k b
        = List.replicate k a ++ b :: List.replicate (n - k - 1) a := by
  intro k
  induction k with
  | zero =>
    intro n h
    cases n with
    | zero => omega
    | succ m => simp [List.replicate_succ]
  | succ k ih =>
    intro n h
    cases n with
    | zero => omega
    | succ m =>
      simp only [List.replicate_succ, List.set_cons_succ, List.cons_append,
        List.cons.injEq, true_and]
      have := ih m (by omega)
      simpa using this

/- Helper: cumulative sums of a zero block keep the accumulator. -/
theorem cumsum_replicate_zero (acc : ℚ) :
    ∀ m, cumsum acc (List.replicate m 0) = List.replicate m acc := by
  intro m
  induction m generalizing acc with
  | zero => rfl
  | succ m ih => simp [List.replicate_succ, cumsum, ih]

/- Helper: the cumulative-weight sequence of the one-hot weight vector
(`1` at index `k`) is `0` up to `k` and `1` from `k` on. -/
theorem cumsum_delta (m : ℕ) :
    ∀ k, cumsum 0 (List.replicate k 0 ++ 1 :: List.replicate m 0)
      = List.replicate k (0 : ℚ) ++ 1 :: List.replicate m 1 := by
  intro k
  induction k with
  | zero => simp [cumsum, cumsum_replicate_zero]
  | succ k ih => simp [List.replicate_succ, cumsum, ih]

/- Helper: the inner while-loop of `resample` on the one-hot cumulative
sequence stops exactly at index `k` for any target mass in `(0, 1]`,
starting from any `j ≤ k`. -/
theorem advanceJ_delta (k m : ℕ) (t : ℚ) (ht0 : 0 < t) (ht1 : t ≤ 1) :
    ∀ fuel j, j ≤ k → k - j ≤ fuel →
      advanceJ (List.replicate k (0 : ℚ) ++ 1 :: List.replicate m 1) t j
        = some k := by
  have hlen : (List.replicate k (0 : ℚ) ++ 1 :: List.replicate m 1).length
      = k + m + 1 := by simp; omega
  have hget0 : ∀ (j : ℕ) (hj : j < k)
      (h : j < (List.replicate k (0 : ℚ) ++ 1 :: List.replicate m 1).length),
      (List.replicate k (0 : ℚ) ++ 1 :: List.replicate m 1).get ⟨j, h⟩ = 0 := by
    intro j hj h
    rw [List.get_eq_getElem, List.getElem_append_left
      (by simpa using hj)]
    simp
  have hget1 : ∀ (h : k < (List.replicate k (0 : ℚ) ++ 1 :: List.replicate m 1).length),
      (List.replicate k (0 : ℚ) ++ 1 :: List.replicate m 1).get ⟨k, h⟩ = 1 := by
    intro h
    rw [List.get_eq_getElem, List.getElem_append_right (by simp)]
    simp
  intro fuel
  induction fuel with
  | zero =>
    intro j hj hle
    have hjk : j = k := by omega
    subst hjk
    rw [advanceJ]
    rw [dif_pos (by rw [hlen]; omega)]
    rw [hget1]
    rw [if_neg (by exact not_lt.mpr ht1)]
  | succ fuel ih =>
    intro j hj hle
    by_cases hjk : j = k
    · subst hjk
      rw [advanceJ]
      rw [dif_pos (by rw [hlen]; omega)]
      rw [hget1]
      rw [if_neg (by exact not_lt.mpr ht1)]
    · have hjlt : j < k := by omega
      rw [advanceJ]
      rw [dif_pos (by rw [hlen]; omega)]
      rw [hget0 j hjlt]
      rw [if_pos ht0]
      exact ih (j + 1) (by omega) (by omega)

/- Helper: `getD` on a constant list. -/
theorem getD_replicate {α : Type} (a d : α) :
    ∀ (n k : ℕ), (List.replicate n a).getD k d = if k < n then a else d := by
  intro n
  induction n with
  | zero => intro k; simp [List.replicate]
  | succ n ih =>
    intro k
    cases k with
    | zero => simp [List.replicate_succ]
    | succ k => simpa [List.replicate_succ] using ih k

/- Helper: setting a cell of a constant list to its own value is the
identity. -/
theorem set_replicate_self {α : Type} (a : α) :
    ∀ (n k : ℕ), (List.replicate n a).set k a = List.replicate n a := by
  intro n
  induction n with
  | zero => intro k; rfl
  | succ n ih =>
    intro k
    cases k with
    | zero => simp [List.replicate_succ]
    | succ k => simp [List.replicate_succ, List.set_cons_succ, ih k]

/- Helper: the counting loop of `resample` on the one-hot cumulative
sequence sends every child to parent `k`: starting from any `j ≤ k` with
the count cell at `k` holding `c`, it ends with that cell holding
`c + ts.length` and every other cell still `0`. -/
theorem nChildsLoop_delta (k m chains : ℕ) (hchains : chains = k + m + 1) :
    ∀ (ts : List ℚ) (c j₀ : ℕ), j₀ ≤ k → (∀ t ∈ ts, 0 < t ∧ t ≤ 1) →
      ∃ jf, nChildsLoop (List.replicate k (0 : ℚ) ++ 1 :: List.replicate m 1)
          ts j₀ ((List.replicate chains 0).set k c)
        = some (jf, (List.replicate chains 0).set k (c + ts.length)) := by
  intro ts
  induction ts with
  | nil =>
    intro c j₀ hj₀ _
    exact ⟨j₀, by simp [nChildsLoop]⟩
  | cons t ts ih =>
    intro c j₀ hj₀ hts
    have ht := hts t (List.mem_cons_self t ts)
    have hadv := advanceJ_delta k m t ht.1 ht.2 (k - j₀) j₀ hj₀ (le_refl _)
    rw [nChildsLoop, hadv]
    simp only
    have hgetD : ((List.replicate chains 0).set k c).getD k 0 = c :=
      getD_set_self (List.replicate chains 0) k c 0 (by simp; omega)
    rw [hgetD, List.set_set]
    have harith : c + 1 + ts.length = c + (ts.length + 1) := by omega
    have := ih (c + 1) k (le_refl k) (fun t' ht' => hts t' (List.mem_cons_of_mem t ht'))
    rw [harith] at this
    simpa [List.length_cons] using this

/- Helper: `fillSlots` walks past a cons cell when writing further right. -/
theorem fillSlots_cons (a : ℕ) :
    ∀ (c : ℕ) (t : List ℕ) (s v : ℕ),
      fillSlots (a :: t) (s + 1) c v = a :: fillSlots t s c v := by
  intro c
  induction c with
  | zero => intro t s v; rfl
  | succ c ih =>
    intro t s v
    rw [fillSlots, fillSlots]
    simp only [List.set_cons_succ]
    exact ih (t.set s v) (s + 1) v

/- Helper: filling a whole zero-initialized output from slot 0 yields a
constant list. -/
theorem fillSlots_zero :
    ∀ (c : ℕ) (t : List ℕ) (v : ℕ), t.length = c →
      fillSlots t 0 c v = List.replicate c v := by
  intro c
  induction c with
  | zero =>
    intro t v h
    cases t with
    | nil => rfl
    | cons a t' => simp at h
  | succ c ih =>
    intro t v h
    cases t with
    | nil => simp at h
    | cons a t' =>
      rw [fillSlots]
      simp only [List.set_cons_zero]
      rw [show (0 + 1 : ℕ) = 0 + 1 from rfl]
      rw [fillSlots_cons v c t' 0 v]
      rw [ih t' v (by simpa using h)]
      rfl

/- Helper: the output loop of `resample` skips a zero block of
`N_childs`, only advancing the parent index. -/
theorem outLoop_skip_zeros :
    ∀ (mz : ℕ) (ns : List ℕ) (indx : ℕ) (out : List ℕ) (i : ℕ),
      outLoop (List.replicate mz 0 ++ ns) indx out i = outLoop ns indx out (i + mz) := by
  intro mz
  induction mz with
  | zero => intro ns indx out i; simp
  | succ mz ih =>
    intro ns indx out i
    simp only [List.replicate_succ, List.cons_append]
    rw [outLoop]
    simp only [Nat.add_zero, gt_iff_lt, lt_irrefl, if_false]
    rw [ih ns indx out (i + 1)]
    congr 1
    omega

/- Helper: the output loop leaves `out` unchanged on a pure zero block. -/
theorem outLoop_zeros :
    ∀ (mz indx : ℕ) (out : List ℕ) (i : ℕ),
      outLoop (List.replicate mz 0) indx out i = out := by
  intro mz
  induction mz with
  | zero => intro indx out i; rfl
  | succ mz ih =>
    intro indx out i
    simp only [List.replicate_succ]
    rw [outLoop]
    simp only [gt_iff_lt, lt_irrefl, if_false]
    exact ih (indx + 0) out (i + 1)

/-- Claim C6, amended.  For a population of `chains` chains whose weight
vector puts all mass on index `k`, `SMC_ABC.resample` returns the
ancestor array with every slot equal to `k` for every uniform offset `u`
in the OPEN interval `(0, 1)` — but not for `u = 0`, which the claim's
half-open interval `[0, 1)` also allows: at `u = 0` the first target mass
is exactly `0`, the strict comparison `u[i] > cum_dist[j]` fails to step
over the zero-weight prefix, and a zero-weight ancestor is returned (see
`resample_u_zero_cex`). -/
theorem resample_concentrated (chains k : ℕ) (r : ℚ) (hk : k < chains)
    (hr0 : 0 < r) (hr1 : r < 1) :
    resample chains ((List.replicate chains (0 : ℚ)).set k 1) r
      = some (List.replicate chains k) := by
  have hchains : chains = k + (chains - k - 1) + 1 := by omega
  have hchains0 : 0 < chains := by omega
  set m := chains - k - 1 with hm
  rw [resample]
  rw [set_replicate_decomp (0 : ℚ) 1 k chains hk, ← hm, cumsum_delta m k]
  have hus : ∀ t ∈ (List.range chains).map
      (fun i : ℕ => ((i : ℚ) + r) / (chains : ℚ)), 0 < t ∧ t ≤ 1 := by
    intro t ht
    rcases List.mem_map.mp ht with ⟨i, hi, hit⟩
    have hilt : i < chains := List.mem_range.mp hi
    have hcpos : (0 : ℚ) < (chains : ℚ) := by exact_mod_cast hchains0
    constructor
    · rw [← hit]
      apply div_pos _ hcpos
      have : (0 : ℚ) ≤ (i : ℚ) := by positivity
      linarith
    · rw [← hit]
      rw [div_le_one hcpos]
      have : (i : ℚ) ≤ (chains : ℚ) - 1 := by
        have : (i : ℚ) + 1 ≤ (chains : ℚ) := by exact_mod_cast hilt
        linarith
      linarith
  have hN0 : (List.replicate chains (0 : ℕ))
      = (List.replicate chains (0 : ℕ)).set k 0 :=
    (set_replicate_self 0 chains k).symm
  rw [hN0]
  rcases nChildsLoop_delta k m chains hchains
      ((List.range chains).map (fun i : ℕ => ((i : ℚ) + r) / (chains : ℚ)))
      0 0 (Nat.zero_le k) hus with ⟨jf, hloop⟩
  rw [hloop]
  simp only [List.length_map, List.length_range, Nat.zero_add]
  rw [set_replicate_decomp (0 : ℕ) chains k chains hk, ← hm]
  rw [outLoop_skip_zeros k (chains :: List.replicate m 0) 0
    ((List.replicate chains (0 : ℕ)).set k 0) 0]
  rw [set_replicate_self 0 chains k]
  rw [outLoop]
  rw [if_pos hchains0]
  rw [fillSlots_zero chains (List.replicate chains 0) (0 + k) (by simp)]
  rw [outLoop_zeros m (0 + chains) (List.replicate chains (0 + k)) (0 + k + 1)]
  simp

/-- Witness for `resample_concentrated`: 2 chains, all weight on index 1,
offset `u = 1/3`. -/
theorem resample_concentrated_witness :
    resample 2 ((List.replicate 2 (0 : ℚ)).set 1 1) (1/3)
      = some (List.replicate 2 1) :=
  resample_concentrated 2 1 (1/3) (by norm_num) (by norm_num) (by norm_num)

/-- Claim C6, counterexample.  With 2 chains, all weight on index 1 and
uniform offset `u = 0` — a value the claim's interval `[0, 1)` includes —
`resample` returns `[0, 1]`: slot 0 receives the zero-weight ancestor 0,
because the first target mass is `(0 + 0)/2 = 0` and the walk
`while u[i] > cum_dist[j]` does not advance past `cum_dist[0] = 0`.  The
claim requires `[1, 1]`. -/
theorem resample_u_zero_cex :
    resample 2 ((List.replicate 2 (0 : ℚ)).set 1 1) 0 = some [0, 1] ∧
    ([0, 1] : List ℕ) ≠ List.replicate 2 1 := by
  constructor
  · have ha0 : advanceJ [0, 1] 0 0 = some 0 := by
      rw [advanceJ]; norm_num
    have ha1 : advanceJ [0, 1] (1/2) 0 = some 1 := by
      rw [advanceJ]; norm_num
      rw [advanceJ]; norm_num
    norm_num [resample, cumsum, List.range_succ, List.replicate,
      nChildsLoop, outLoop, fillSlots, ha0, ha1]
  · decide

/- ----------------------------------------------------------------------
Helper lemmas for claim C9 (Cholesky pivot recursion).
---------------------------------------------------------------------- -/

/- Pointwise-equal functions give equal zipWiths. -/
theorem zipWith_ext {α β γ : Type} (f g : α → β → γ)
    (h : ∀ a b, f a b = g a b) :
    ∀ (l₁ : List α) (l₂ : List β), List.zipWith f l₁ l₂ = List.zipWith g l₁ l₂ := by
  intro l₁
  induction l₁ with
  | nil => intro l₂; simp
  | cons a t ih =>
    intro l₂
    cases l₂ with
    | nil => simp
    | cons b t₂ => simp [h a b, ih t₂]

/- Sums over zipWith split over pointwise addition. -/
theorem sum_zipWith_add {α β : Type} (f g : α → β → ℚ) :
    ∀ (l₁ : List α) (l₂ : List β),
      (List.zipWith (fun a b => f a b + g a b) l₁ l₂).sum
        = (List.zipWith f l₁ l₂).sum + (List.zipWith g l₁ l₂).sum := by
  intro l₁
  induction l₁ with
  | nil => intro l₂; simp
  | cons a t ih =>
    intro l₂
    cases l₂ with
    | nil => simp
    | cons b t₂ =>
      simp only [List.zipWith_cons_cons, List.sum_cons, ih t₂]
      ring

/- Sums over zipWith split over pointwise subtraction. -/
theorem sum_zipWith_sub {α β : Type} (f g : α → β → ℚ) :
    ∀ (l₁ : List α) (l₂ : List β),
      (List.zipWith (fun a b => f a b - g a b) l₁ l₂).sum
        = (List.zipWith f l₁ l₂).sum - (List.zipWith g l₁ l₂).sum := by
  intro l₁
  induction l₁ with
  | nil => intro l₂; simp
  | cons a t ih =>
    intro l₂
    cases l₂ with
    | nil => simp
    | cons b t₂ =>
      simp only [List.zipWith_cons_cons, List.sum_cons, ih t₂]
      ring

/- A constant factor moves out of a zipWith sum. -/
theorem sum_zipWith_mul_left {α β : Type} (c : ℚ) (f : α → β → ℚ) :
    ∀ (l₁ : List α) (l₂ : List β),
      (List.zipWith (fun a b => c * f a b) l₁ l₂).sum
        = c * (List.zipWith f l₁ l₂).sum := by
  intro l₁
  induction l₁ with
  | nil => intro l₂; simp
  | cons a t ih =>
    intro l₂
    cases l₂ with
    | nil => simp
    | cons b t₂ =>
      simp only [List.zipWith_cons_cons, List.sum_cons, ih t₂]
      ring

/- A zipWith sum against a zero left block vanishes when the function
kills zero. -/
theorem sum_zipWith_zero_left {β : Type} (f : ℚ → β → ℚ)
    (h : ∀ b, f 0 b = 0) :
    ∀ (m : ℕ) (l : List β),
      (List.zipWith f (List.replicate m 0) l).sum = 0 := by
  intro m
  induction m with
  | zero => intro l; simp
  | succ m ih =>
    intro l
    cases l with
    | nil => simp
    | cons b t =>
      simp only [List.replicate_succ, List.zipWith_cons_cons, List.sum_cons,
        h b, ih t, add_zero]

/- The dot product is commutative. -/
theorem dotc_comm : ∀ (xs ys : List ℚ), dotc xs ys = dotc ys xs := by
  intro xs
  induction xs with
  | nil => intro ys; cases ys <;> rfl
  | cons x t ih =>
    intro ys
    cases ys with
    | nil => rfl
    | cons y t₂ =>
      simp only [dotc, List.zipWith_cons_cons, List.sum_cons] at *
      rw [mul_comm, ih t₂]

/- dot3 with an exhausted third argument. -/
theorem dot3_nil_right : ∀ (xs ds : List ℚ), dot3 xs ds [] = 0 := by
  intro xs ds
  cases xs <;> cases ds <;> rfl

/- dot3 with an exhausted first argument. -/
theorem dot3_nil_left : ∀ (ds ys : List ℚ), dot3 [] ds ys = 0 := by
  intro ds ys
  cases ds <;> cases ys <;> rfl

/- dot3 against a zero left block vanishes. -/
theorem dot3_zero_left :
    ∀ (m : ℕ) (ds ys : List ℚ), dot3 (List.replicate m 0) ds ys = 0 := by
  intro m
  induction m with
  | zero => intro ds ys; exact dot3_nil_left ds ys
  | succ m ih =>
    intro ds ys
    cases ds with
    | nil => rfl
    | cons d t =>
      cases ys with
      | nil => exact dot3_nil_right _ _
      | cons y t₂ =>
        simp only [List.replicate_succ, dot3, ih t t₂]
        ring

/- dot3 against a zero right block vanishes. -/
theorem dot3_zero_right :
    ∀ (m : ℕ) (xs ds : List ℚ), dot3 xs ds (List.replicate m 0) = 0 := by
  intro m
  induction m with
  | zero => intro xs ds; exact dot3_nil_right xs ds
  | succ m ih =>
    intro xs ds
    cases xs with
    | nil => exact dot3_nil_left _ _
    | cons x t =>
      cases ds with
      | nil => rfl
      | cons d t₂ =>
        simp only [List.replicate_succ, dot3, ih t t₂]
        ring

/- `headD` is `getD` at index 0. -/
theorem headD_eq_getD {α : Type} : ∀ (l : List α) (d : α),
    l.headD d = l.getD 0 d := by
  intro l d
  cases l <;> rfl

/- `getD` on a tail shifts the index. -/
theorem getD_tail {α : Type} : ∀ (l : List α) (j : ℕ) (d : α),
    l.tail.getD j d = l.getD (j + 1) d := by
  intro l j d
  cases l <;> rfl

/- dotc on cons cells. -/
theorem dotc_cons (a b : ℚ) (as bs : List ℚ) :
    dotc (a :: as) (b :: bs) = a * b + dotc as bs := by
  simp [dotc]

/- dotc of any row against a cons splits off the head. -/
theorem dotc_head_tail (r : List ℚ) (t : ℚ) (y : List ℚ) :
    dotc r (t :: y) = r.headD 0 * t + dotc r.tail y := by
  cases r with
  | nil => simp [dotc]
  | cons a rt => simp [dotc_cons, dotc]

/- The quadratic form written through dotc. -/
theorem quadForm_eq (s : List (List ℚ)) (x : List ℚ) :
    quadForm s x = (List.zipWith (fun xi row => xi * dotc row x) x s).sum := rfl

/- The quadratic form on a cons decomposition. -/
theorem quadForm_cons (row : List ℚ) (rest : List (List ℚ)) (t : ℚ)
    (y : List ℚ) :
    quadForm (row :: rest) (t :: y)
      = t * dotc row (t :: y)
        + (List.zipWith (fun yi r => yi * dotc r (t :: y)) y rest).sum := by
  rw [quadForm_eq]
  simp only [List.zipWith_cons_cons, List.sum_cons]

/- A row of the Schur complement dotted with any aligned vector. -/
theorem dotc_schur_row (li d0 : ℚ) :
    ∀ (l rt y : List ℚ), rt.length = l.length → y.length = l.length →
      dotc (List.zipWith (fun lj a => a - li * lj * d0) l rt) y
        = dotc rt y - li * d0 * dotc l y := by
  intro l
  induction l with
  | nil =>
    intro rt y h1 h2
    rcases List.length_eq_zero.mp h1 with rfl
    rcases List.length_eq_zero.mp h2 with rfl
    simp [dotc]
  | cons x l' ih =>
    intro rt y h1 h2
    cases rt with
    | nil => simp at h1
    | cons a rt' =>
      cases y with
      | nil => simp at h2
      | cons yi y' =>
        simp only [List.zipWith_cons_cons]
        rw [dotc_cons, dotc_cons, dotc_cons,
          ih rt' y' (by simpa using h1) (by simpa using h2)]
        ring

/- Summing the quadratic form of the Schur complement row by row. -/
theorem sum_rows_schur (d0 : ℚ) (lc yfull : List ℚ)
    (hy : yfull.length = lc.length) :
    ∀ (ypeel lrow : List ℚ) (restpeel : List (List ℚ)),
      lrow.length = ypeel.length → restpeel.length = ypeel.length →
      (∀ r ∈ restpeel, r.tail.length = lc.length) →
      (List.zipWith (fun yi srow => yi * dotc srow yfull) ypeel
          (List.zipWith (fun li r =>
            List.zipWith (fun lj a => a - li * lj * d0) lc r.tail)
            lrow restpeel)).sum
        = (List.zipWith (fun yi r => yi * dotc r.tail yfull) ypeel
            restpeel).sum
          - d0 * dotc lc yfull * dotc ypeel lrow := by
  intro ypeel
  induction ypeel with
  | nil =>
    intro lrow restpeel h1 h2 _
    simp [dotc]
  | cons yi y' ih =>
    intro lrow restpeel h1 h2 hr
    cases lrow with
    | nil => simp at h1
    | cons li l' =>
      cases restpeel with
      | nil => simp at h2
      | cons r rest' =>
        simp only [List.zipWith_cons_cons, List.sum_cons]
        rw [dotc_schur_row li d0 lc r.tail yfull
          (hr r (List.mem_cons_self r rest')) hy]
        rw [ih l' rest' (by simpa using h1) (by simpa using h2)
          (fun r' h' => hr r' (List.mem_cons_of_mem r h'))]
        rw [dotc_cons]
        ring

/- The Schur-complement identity: for a symmetric matrix with pivot `d0`
and first column `d0 * l`, evaluating the quadratic form at
`(-(l . y)) :: y` eliminates the first coordinate and leaves the
quadratic form of the Schur complement at `y`. -/
theorem quadForm_schur_identity (d0 : ℚ) (hd0 : d0 ≠ 0) (row : List ℚ)
    (rest : List (List ℚ)) (y : List ℚ)
    (hylen : y.length = rest.length)
    (hrows : ∀ r ∈ rest, r.tail.length = rest.length)
    (hcol : row.tail = rest.map (fun r => r.headD 0))
    (hd0row : row.headD 0 = d0) :
    quadForm (row :: rest)
        (-(dotc (rest.map (fun r => r.headD 0 / d0)) y) :: y)
      = quadForm (List.zipWith (fun li r =>
          List.zipWith (fun lj a => a - li * lj * d0)
            (rest.map (fun r => r.headD 0 / d0)) r.tail)
          (rest.map (fun r => r.headD 0 / d0)) rest) y := by
  have hllen : (rest.map (fun r => r.headD 0 / d0)).length = rest.length := by
    simp
  have hylen' : y.length = (rest.map (fun r => r.headD 0 / d0)).length := by
    rw [hllen]; exact hylen
  -- the right-hand side via sum_rows_schur
  have hrhs : quadForm (List.zipWith (fun li r =>
        List.zipWith (fun lj a => a - li * lj * d0)
          (rest.map (fun r => r.headD 0 / d0)) r.tail)
        (rest.map (fun r => r.headD 0 / d0)) rest) y
      = (List.zipWith (fun yi r => yi * dotc r.tail y) y rest).sum
        - d0 * dotc (rest.map (fun r => r.headD 0 / d0)) y
            * dotc y (rest.map (fun r => r.headD 0 / d0)) := by
    rw [quadForm_eq]
    exact sum_rows_schur d0 (rest.map (fun r => r.headD 0 / d0)) y hylen'
      y (rest.map (fun r => r.headD 0 / d0)) rest (hllen.trans hylen.symm)
      hylen.symm (fun r hr => by rw [hrows r hr, hllen])
  -- the first-column sum written with heads
  have hC : dotc (rest.map (fun r => r.headD 0)) y
      = (List.zipWith (fun yi r => yi * r.headD 0) y rest).sum := by
    rw [dotc, List.zipWith_map_left, List.zipWith_comm]
    exact congrArg List.sum (zipWith_ext _ _ (fun a b => mul_comm _ _) y rest)
  -- the first-column sum equals d0 times the scaled-column sum
  have hCu : (List.zipWith (fun yi r => yi * r.headD 0) y rest).sum
      = d0 * dotc (rest.map (fun r => r.headD 0 / d0)) y := by
    rw [dotc, List.zipWith_map_left, List.zipWith_comm]
    rw [← sum_zipWith_mul_left d0
      (fun (r : List ℚ) (b : ℚ) => r.headD 0 / d0 * b) rest y]
    exact congrArg List.sum (zipWith_ext _ _
      (fun a b => by field_simp; ring) rest y)
  -- expand the left-hand side
  rw [quadForm_cons]
  rw [dotc_head_tail, hd0row, hcol]
  have hsplit : (List.zipWith (fun yi r => yi * dotc r
      (-(dotc (rest.map (fun r => r.headD 0 / d0)) y) :: y)) y rest).sum
      = (List.zipWith (fun yi r =>
            yi * (r.headD 0 * (-(dotc (rest.map (fun r => r.headD 0 / d0)) y)))
              + yi * dotc r.tail y) y rest).sum := by
    exact congrArg List.sum (zipWith_ext _ _
      (fun a b => by rw [dotc_head_tail]; ring) y rest)
  rw [hsplit, sum_zipWith_add]
  have hfac : (List.zipWith (fun yi r =>
      yi * (r.headD 0 * (-(dotc (rest.map (fun r => r.headD 0 / d0)) y))))
      y rest).sum
      = (-(dotc (rest.map (fun r => r.headD 0 / d0)) y))
        * (List.zipWith (fun yi r => yi * r.headD 0) y rest).sum := by
    rw [← sum_zipWith_mul_left (-(dotc (rest.map (fun r => r.headD 0 / d0)) y))
      (fun (yi : ℚ) (r : List ℚ) => yi * r.headD 0)]
    exact congrArg List.sum (zipWith_ext _ _ (fun a b => by ring) y rest)
  rw [hfac, hrhs, hC, hCu]
  have hcomm : dotc y (rest.map (fun r => r.headD 0 / d0))
      = dotc (rest.map (fun r => r.headD 0 / d0)) y := dotc_comm _ _
  rw [hcomm]
  ring

/- getD through a zipWith, in range on both sides. -/
theorem getD_zipWith {α β γ : Type} (f : α → β → γ) (l₁ : List α)
    (l₂ : List β) (i : ℕ) (d : γ) (d₁ : α) (d₂ : β)
    (h₁ : i < l₁.length) (h₂ : i < l₂.length) :
    (List.zipWith f l₁ l₂).getD i d = f (l₁.getD i d₁) (l₂.getD i d₂) := by
  rw [List.getD_eq_getElem _ _ (by simp [List.length_zipWith]; omega),
    List.getElem_zipWith, List.getD_eq_getElem _ _ h₁,
    List.getD_eq_getElem _ _ h₂]

/- getD through a map of rows, in range. -/
theorem getD_map_rows (f : List ℚ → ℚ) (l : List (List ℚ)) (i : ℕ) (d : ℚ)
    (h : i < l.length) :
    (l.map f).getD i d = f (l.getD i []) := by
  rw [List.getD_eq_getElem _ _ (by simpa), List.getElem_map,
    List.getD_eq_getElem _ _ h]

/- Entry lemmas for the zero-padded matrix accessor. -/
theorem entry_cons_zero (row : List ℚ) (rest : List (List ℚ)) (j : ℕ) :
    entry (row :: rest) 0 j = row.getD j 0 := rfl

theorem entry_cons_succ (row : List ℚ) (rest : List (List ℚ)) (i j : ℕ) :
    entry (row :: rest) (i + 1) j = entry rest i j := rfl

theorem entry_out_row (M : List (List ℚ)) (i j : ℕ) (h : M.length ≤ i) :
    entry M i j = 0 := by
  rw [entry, List.getD_eq_default _ _ h,
    List.getD_eq_default _ _ (by simp : ([] : List ℚ).length ≤ j)]

theorem entry_out_col (M : List (List ℚ)) (i j : ℕ)
    (h : (M.getD i []).length ≤ j) :
    entry M i j = 0 := by
  rw [entry, List.getD_eq_default _ _ h]

/- dotc against a zero vector. -/
theorem dotc_replicate_zero_right :
    ∀ (xs : List ℚ) (m : ℕ), dotc xs (List.replicate m 0) = 0 := by
  intro xs
  induction xs with
  | nil => intro m; simp [dotc]
  | cons x t ih =>
    intro m
    cases m with
    | zero => simp [dotc]
    | succ m =>
      simp only [List.replicate_succ, dotc_cons, ih m, mul_zero, add_zero]

/- Shape of the Schur complement. -/
theorem schur_sqShape (d0 : ℚ) (rest : List (List ℚ))
    (hrows : ∀ r ∈ rest, r.length = rest.length + 1) :
    sqShape rest.length (List.zipWith (fun li r =>
      List.zipWith (fun lj a => a - li * lj * d0)
        (rest.map (fun r => r.headD 0 / d0)) r.tail)
      (rest.map (fun r => r.headD 0 / d0)) rest) := by
  constructor
  · simp [List.length_zipWith]
  · intro srow hsrow
    rcases List.mem_iff_getElem.mp hsrow with ⟨i, hilen, hieq⟩
    rw [← hieq, List.getElem_zipWith]
    have hir : i < rest.length := by
      simpa [List.length_zipWith] using hilen
    have hmem : rest[i] ∈ rest := List.getElem_mem _
    simp only [List.length_zipWith, List.length_map, List.length_tail]
    rw [hrows rest[i] hmem]
    omega

/- Entries of the Schur complement, in range. -/
theorem schur_entry (d0 : ℚ) (rest : List (List ℚ))
    (hrows : ∀ r ∈ rest, r.length = rest.length + 1) :
    ∀ i j, i < rest.length → j < rest.length →
      entry (List.zipWith (fun li r =>
          List.zipWith (fun lj a => a - li * lj * d0)
            (rest.map (fun r => r.headD 0 / d0)) r.tail)
          (rest.map (fun r => r.headD 0 / d0)) rest) i j
        = entry rest i (j + 1)
          - (entry rest i 0 / d0) * (entry rest j 0 / d0) * d0 := by
  intro i j hi hj
  have hri : rest.getD i [] ∈ rest := by
    rw [List.getD_eq_getElem _ _ hi]
    exact List.getElem_mem _
  have htail : (rest.getD i []).tail.length = rest.length := by
    rw [List.length_tail, hrows _ hri]
    omega
  rw [entry]
  rw [getD_zipWith _ _ _ i [] 0 [] (by simpa) hi]
  rw [getD_map_rows (fun r => r.headD 0 / d0) rest i 0 hi]
  rw [getD_zipWith _ _ _ j 0 0 0 (by simpa) (by rw [htail]; exact hj)]
  rw [getD_map_rows (fun r => r.headD 0 / d0) rest j 0 hj]
  rw [getD_tail]
  simp only [entry, headD_eq_getD]

/- Symmetry of the Schur complement of a symmetric matrix. -/
theorem schur_symm (d0 : ℚ) (row : List ℚ) (rest : List (List ℚ))
    (hrows : ∀ r ∈ rest, r.length = rest.length + 1)
    (hsym : symmM (row :: rest)) :
    symmM (List.zipWith (fun li r =>
      List.zipWith (fun lj a => a - li * lj * d0)
        (rest.map (fun r => r.headD 0 / d0)) r.tail)
      (rest.map (fun r => r.headD 0 / d0)) rest) := by
  have hshape := schur_sqShape d0 rest hrows
  intro i j
  by_cases hi : i < rest.length
  · by_cases hj : j < rest.length
    · rw [schur_entry d0 rest hrows i j hi hj,
        schur_entry d0 rest hrows j i hj hi]
      have h1 : entry rest i (j + 1) = entry rest j (i + 1) := by
        have h2 := hsym (i + 1) (j + 1)
        rw [entry_cons_succ, entry_cons_succ] at h2
        exact h2
      rw [h1]
      ring
    · have hrowlen : ((List.zipWith (fun li r =>
          List.zipWith (fun lj a => a - li * lj * d0)
            (rest.map (fun r => r.headD 0 / d0)) r.tail)
          (rest.map (fun r => r.headD 0 / d0)) rest).getD i []).length
          = rest.length := by
        rcases hshape with ⟨hlen, hrows'⟩
        rw [List.getD_eq_getElem _ _ (by rw [hlen]; exact hi)]
        exact hrows' _ (List.getElem_mem _)
      rw [entry_out_col _ i j (by rw [hrowlen]; omega),
        entry_out_row _ j i (by simp [List.length_zipWith]; omega)]
  · by_cases hj : j < rest.length
    · have hrowlen : ((List.zipWith (fun li r =>
          List.zipWith (fun lj a => a - li * lj * d0)
            (rest.map (fun r => r.headD 0 / d0)) r.tail)
          (rest.map (fun r => r.headD 0 / d0)) rest).getD j []).length
          = rest.length := by
        rcases hshape with ⟨hlen, hrows'⟩
        rw [List.getD_eq_getElem _ _ (by rw [hlen]; exact hj)]
        exact hrows' _ (List.getElem_mem _)
      rw [entry_out_row _ i j (by simp [List.length_zipWith]; omega),
        entry_out_col _ j i (by rw [hrowlen]; omega)]
    · rw [entry_out_row _ i j (by simp [List.length_zipWith]; omega),
        entry_out_row _ j i (by simp [List.length_zipWith]; omega)]

/- Main lemma for claim C9: on a square symmetric positive-definite
matrix the Cholesky pivot recursion succeeds, every pivot is positive,
the factor is unit lower triangular, and `L * diag D * L^T` reconstructs
the input matrix entry by entry. -/
theorem ldl_main (n : ℕ) :
    ∀ s : List (List ℚ), sqShape n s → symmM s → PosDefM s →
      ∃ L D, ldl s = some (L, D) ∧
        L.length = n ∧ D.length = n ∧
        (∀ i, i < n → (L.getD i []).length = n) ∧
        (∀ d ∈ D, 0 < d) ∧
        (∀ i j, i < j → entry L i j = 0) ∧
        (∀ i, i < n → entry L i i = 1) ∧
        (∀ i j, dot3 (L.getD i []) D (L.getD j []) = entry s i j) := by
  induction n with
  | zero =>
    intro s hs _ _
    rcases List.length_eq_zero.mp hs.1 with rfl
    refine ⟨[], [], by rw [ldl], rfl, rfl, ?_, ?_, ?_, ?_, ?_⟩
    · intro i hi; omega
    · intro d hd; simp at hd
    · intro i j _; simp [entry]
    · intro i hi; omega
    · intro i j; simp [entry, dot3_nil_left]
  | succ n ih =>
    intro s hs hsym hpd
    cases s with
    | nil =>
      exfalso
      have := hs.1
      simp at this
    | cons row rest =>
      have hrow_len : row.length = n + 1 := hs.2 row (List.mem_cons_self _ _)
      have hrest_count : rest.length = n := by
        have h := hs.1
        simpa using h
      have hrows : ∀ r ∈ rest, r.length = n + 1 :=
        fun r hr => hs.2 r (List.mem_cons_of_mem _ hr)
      have hrows' : ∀ r ∈ rest, r.length = rest.length + 1 := by
        intro r hr
        rw [hrest_count]
        exact hrows r hr
      set d0 := row.headD 0 with hd0def
      have hq_e0 : quadForm (row :: rest) (1 :: List.replicate n 0) = d0 := by
        rw [quadForm_cons]
        rw [sum_zipWith_zero_left
          (fun yi r => yi * dotc r ((1 : ℚ) :: List.replicate n 0))
          (fun r => by ring) n rest]
        rw [dotc_head_tail, dotc_replicate_zero_right]
        ring
      have hd0pos : 0 < d0 := by
        have h1 := hpd (1 :: List.replicate n 0)
          (by simp [hrest_count]) ⟨0, by simp⟩
        rw [hq_e0] at h1
        exact h1
      have hcol : row.tail = rest.map (fun r => r.headD 0) := by
        apply List.ext_getElem
        · simp [hrow_len, hrest_count]
        · intro j h1 h2
          have hjr : j < rest.length := by simpa using h2
          have hsj := hsym 0 (j + 1)
          rw [entry_cons_zero, entry_cons_succ] at hsj
          calc row.tail[j]
              = row.tail.getD j 0 := (List.getD_eq_getElem _ _ h1).symm
            _ = row.getD (j + 1) 0 := getD_tail row j 0
            _ = entry rest j 0 := hsj
            _ = rest[j].headD 0 := by
                rw [headD_eq_getD, entry, List.getD_eq_getElem _ _ hjr]
            _ = (rest.map (fun r => r.headD 0))[j] := by
                rw [List.getElem_map]
      have hschur_shape : sqShape n (List.zipWith (fun li r =>
          List.zipWith (fun lj a => a - li * lj * d0)
            (rest.map (fun r => r.headD 0 / d0)) r.tail)
          (rest.map (fun r => r.headD 0 / d0)) rest) := by
        have h := schur_sqShape d0 rest hrows'
        rwa [hrest_count] at h
      have hschur_symm := schur_symm d0 row rest hrows' hsym
      have hschur_pd : PosDefM (List.zipWith (fun li r =>
          List.zipWith (fun lj a => a - li * lj * d0)
            (rest.map (fun r => r.headD 0 / d0)) r.tail)
          (rest.map (fun r => r.headD 0 / d0)) rest) := by
        intro y hy hynz
        have hylen : y.length = rest.length := by
          simpa [List.length_zipWith] using hy
        have hid := quadForm_schur_identity d0 (ne_of_gt hd0pos) row rest y
          hylen (fun r hr => by rw [List.length_tail, hrows' r hr]; omega)
          hcol rfl
        rcases hynz with ⟨i, hyi⟩
        have hx := hpd (-(dotc (rest.map (fun r => r.headD 0 / d0)) y) :: y)
          (by simp [hylen])
          ⟨i + 1, by rw [List.getD_cons_succ]; exact hyi⟩
        rw [hid] at hx
        exact hx
      obtain ⟨L', D', hldl', hL'len, hD'len, hL'rows, hD'pos, hL'low,
        hL'diag, hrec'⟩ := ih _ hschur_shape hschur_symm hschur_pd
      have hl_val : ∀ i, i < n →
          (rest.map (fun r => r.headD 0 / d0)).getD i 0
            = entry rest i 0 / d0 := by
        intro i hin
        rw [getD_map_rows (fun r => r.headD 0 / d0) rest i 0
          (by rw [hrest_count]; exact hin)]
        rw [headD_eq_getD]
        rfl
      have hLrow : ∀ i, i < n →
          (List.zipWith (fun li Lr => li :: Lr)
            (rest.map (fun r => r.headD 0 / d0)) L').getD i []
          = (rest.map (fun r => r.headD 0 / d0)).getD i 0 :: L'.getD i [] := by
        intro i hin
        exact getD_zipWith (fun li Lr => li :: Lr) _ _ i [] 0 []
          (by simp only [List.length_map, hrest_count]; exact hin)
          (by rw [hL'len]; exact hin)
      have hLrow_out : ∀ i, n ≤ i →
          (List.zipWith (fun li Lr => li :: Lr)
            (rest.map (fun r => r.headD 0 / d0)) L').getD i [] = [] := by
        intro i hin
        exact List.getD_eq_default _ _
          (by simp only [List.length_zipWith, List.length_map, hL'len,
            hrest_count, Nat.min_self]; exact hin)
      refine ⟨(1 :: List.replicate rest.length 0) ::
          List.zipWith (fun li Lr => li :: Lr)
            (rest.map (fun r => r.headD 0 / d0)) L',
        d0 :: D', ?_, ?_, ?_, ?_, ?_, ?_, ?_, ?_⟩
      · simp only [ldl]
        rw [← hd0def]
        rw [if_neg (not_le.mpr hd0pos)]
        rw [hldl']
      · simp [List.length_zipWith, hL'len, hrest_count]
      · simp [hD'len]
      · intro i hi
        cases i with
        | zero => simp [hrest_count]
        | succ i =>
          have hin : i < n := by omega
          rw [List.getD_cons_succ, hLrow i hin, List.length_cons,
            hL'rows i hin]
      · intro d hd
        rcases List.mem_cons.mp hd with rfl | hd'
        · exact hd0pos
        · exact hD'pos d hd'
      · intro i j hij
        cases i with
        | zero =>
          cases j with
          | zero => omega
          | succ j =>
            rw [entry_cons_zero, List.getD_cons_succ]
            simp [getD_replicate]
        | succ i =>
          cases j with
          | zero => omega
          | succ j =>
            have hij' : i < j := by omega
            rw [entry_cons_succ]
            by_cases hin : i < n
            · rw [entry, hLrow i hin, List.getD_cons_succ]
              exact hL'low i j hij'
            · rw [entry, hLrow_out i (by omega)]
              rw [List.getD_eq_default _ _ (by simp)]
      · intro i hi
        cases i with
        | zero =>
          rw [entry_cons_zero]
          rfl
        | succ i =>
          have hin : i < n := by omega
          rw [entry_cons_succ, entry, hLrow i hin, List.getD_cons_succ]
          exact hL'diag i hin
      · intro i j
        cases i with
        | zero =>
          cases j with
          | zero =>
            simp only [List.getD_cons_zero, dot3, dot3_zero_left,
              entry_cons_zero]
            rw [← headD_eq_getD, ← hd0def]
            ring
          | succ j =>
            rw [List.getD_cons_zero, List.getD_cons_succ]
            by_cases hjn : j < n
            · rw [hLrow j hjn, hl_val j hjn]
              simp only [dot3, dot3_zero_left]
              have hs0 := hsym 0 (j + 1)
              rw [entry_cons_succ] at hs0
              rw [hs0]
              field_simp
            · rw [hLrow_out j (by omega), dot3_nil_right]
              rw [entry_cons_zero, List.getD_eq_default _ _ (by omega)]
        | succ i =>
          cases j with
          | zero =>
            rw [List.getD_cons_zero, List.getD_cons_succ]
            by_cases hin : i < n
            · rw [hLrow i hin, hl_val i hin]
              simp only [dot3, dot3_zero_right]
              rw [entry_cons_succ]
              field_simp
            · rw [hLrow_out i (by omega), dot3_nil_left]
              rw [entry_cons_succ, entry_out_row rest i 0
                (by rw [hrest_count]; omega)]
          | succ j =>
            rw [List.getD_cons_succ, List.getD_cons_succ]
            by_cases hin : i < n
            · by_cases hjn : j < n
              · rw [hLrow i hin, hLrow j hjn, hl_val i hin, hl_val j hjn]
                simp only [dot3]
                rw [hrec' i j]
                have hse := schur_entry d0 rest hrows' i j
                  (by rw [hrest_count]; exact hin)
                  (by rw [hrest_count]; exact hjn)
                rw [hse, entry_cons_succ]
                ring
              · rw [hLrow_out j (by omega), dot3_nil_right, entry_cons_succ]
                have hri : rest.getD i [] ∈ rest := by
                  rw [List.getD_eq_getElem _ _ (by rw [hrest_count]; exact hin)]
                  exact List.getElem_mem _
                rw [entry_out_col rest i (j + 1)
                  (by rw [hrows _ hri]; omega)]
            · rw [hLrow_out i (by omega), dot3_nil_left, entry_cons_succ]
              rw [entry_out_row rest i (j + 1) (by rw [hrest_count]; omega)]

/-- Claim C9.  `MultivariateNormalProposal.__init__` fails exactly when
the supplied matrix is not square (the `n != m` `ValueError`) or its
Cholesky decomposition fails (the `LinAlgError` from a non-positive
pivot); and for every square symmetric positive-definite matrix the
construction succeeds, storing the lower-triangular Cholesky factor:
the pair `(L, D)` has `L` unit lower triangular with positive pivots `D`
and `L * diag D * L^T` equal to the input entry by entry, so
`chol = L * sqrt(diag D)` is the stored lower-triangular factor with
`chol * chol^T = s`. -/
theorem MultivariateNormalProposal_init_spec :
    (∀ s : List (List ℚ),
      (∃ e, MultivariateNormalProposal_init s = Except.error e) ↔
        (s.length ≠ (s.headD []).length ∨ ldl s = none)) ∧
    (∀ (n : ℕ) (s : List (List ℚ)), sqShape n s → symmM s → PosDefM s →
      ∃ L D, MultivariateNormalProposal_init s = Except.ok (L, D) ∧
        (∀ d ∈ D, 0 < d) ∧
        (∀ i j, i < j → entry L i j = 0) ∧
        (∀ i, i < n → entry L i i = 1) ∧
        (∀ i j, dot3 (L.getD i []) D (L.getD j []) = entry s i j)) := by
  constructor
  · intro s
    simp only [MultivariateNormalProposal_init]
    by_cases hsq : s.length ≠ (s.headD []).length
    · rw [if_pos hsq]
      exact ⟨fun _ => Or.inl hsq, fun _ => ⟨CovError.notSquare, rfl⟩⟩
    · rw [if_neg hsq]
      cases hl : ldl s with
      | none =>
        exact ⟨fun _ => Or.inr rfl, fun _ => ⟨CovError.notPosDef, rfl⟩⟩
      | some LD =>
        constructor
        · rintro ⟨e, he⟩
          exact Except.noConfusion he
        · rintro (h | h)
          · exact absurd h hsq
          · exact Option.noConfusion h
  · intro n s hshape hsymm hpd
    obtain ⟨L, D, hldl, hLlen, hDlen, _, hDpos, hlow, hdiag, hrec⟩ :=
      ldl_main n s hshape hsymm hpd
    refine ⟨L, D, ?_, hDpos, hlow, hdiag, hrec⟩
    have hsq : s.length = (s.headD []).length := by
      cases s with
      | nil => rfl
      | cons r t =>
        have h1 := hshape.1
        have h2 := hshape.2 r (List.mem_cons_self r t)
        simp only [List.headD_cons]
        rw [h1, h2]
    simp only [MultivariateNormalProposal_init]
    rw [if_neg (by simp [hsq])]
    rw [hldl]

/-- Witness for `MultivariateNormalProposal_init_spec` at the concrete
symmetric positive-definite matrix `[[2]]`: construction succeeds with
factor `L = [[1]]`, pivots `D = [2]`, and the pivot is positive. -/
theorem MultivariateNormalProposal_init_spec_witness :
    MultivariateNormalProposal_init [[(2 : ℚ)]] = Except.ok ([[1]], [2]) ∧
    (0 : ℚ) < 2 := by
  have hshape : sqShape 1 [[(2 : ℚ)]] := by
    constructor
    · rfl
    · intro r hr
      rcases List.mem_singleton.mp hr with rfl
      rfl
  have hsymm : symmM [[(2 : ℚ)]] := by
    intro i j
    rcases i with _ | i <;> rcases j with _ | j <;>
      simp [entry, List.getD_cons_succ]
  have hpd : PosDefM [[(2 : ℚ)]] := by
    intro x hx hnz
    rcases List.length_eq_one.mp hx with ⟨a, rfl⟩
    rcases hnz with ⟨i, hi⟩
    have ha : a ≠ 0 := by
      rcases i with _ | i
      · simpa using hi
      · exfalso
        apply hi
        simp [List.getD_cons_succ]
    have hq : quadForm [[(2 : ℚ)]] [a] = a * (2 * a) := by
      simp [quadForm, dotc]
    rw [hq]
    nlinarith [mul_self_pos.mpr ha]
  obtain ⟨L, D, hok, hDpos, _, _, _⟩ :=
    MultivariateNormalProposal_init_spec.2 1 [[(2 : ℚ)]] hshape hsymm hpd
  have hcomp : MultivariateNormalProposal_init [[(2 : ℚ)]]
      = Except.ok ([[1]], [2]) := by
    norm_num [MultivariateNormalProposal_init, ldl]
  have hpair : (([[1]], [2]) : List (List ℚ) × List ℚ) = (L, D) :=
    Except.ok.inj (hcomp.symm.trans hok)
  have hD : D = [2] := (congrArg Prod.snd hpair).symm
  exact ⟨hcomp, hDpos 2 (by rw [hD]; exact List.mem_singleton.mpr rfl)⟩
